import Mathlib

/-!
# Verification of the CPU scheduling simulation engine (scheduler.js)

Shallow embedding of the repository's scheduler module. The source is a
unit-granularity discrete simulator: `simulate(algorithm, processes, options)`
normalizes the input processes and dispatches to one of five simulators
(`simulateRR`, `simulateFCFS`, `simulateSJF`, `simulatePriority`,
`simulateMLQ`). Each simulator keeps mutable per-process runtime state, one or
two ready queues, a snapshot history and a trace, and advances time one unit
per unit of CPU work or idling.

Modelling conventions:
* JS numbers carrying process data are integers throughout the engine; they
  are embedded as `Int` (negative inputs are representable, as in JS).
* Aggregate statistics perform division and `Math.max`/`Math.min` over
  possibly-empty lists, which in JS can produce `NaN` and infinities; these
  are embedded in the four-constructor type `JsNum`.
* The mutable simulation loop is embedded as explicit state passing. The
  `while (... && iter < maxIter)` loop becomes structural recursion on the
  remaining iteration budget (`maxIter - iter`).
* `Array.prototype.sort` with a numeric comparator is a stable sort; it is
  embedded as `List.insertionSort` (stable) with the non-strict relation
  corresponding to the comparator.
* The five simulators share their body shape (arrival admission, idle
  emission, per-unit execution with snapshot+trace+time increment). The
  shared shape is factored into a state type `SimState` generic over the
  ready structure together with generic helpers; each simulator instantiates
  them exactly as in its source.
-/

set_option maxHeartbeats 1000000

namespace Sched

/-- Input process descriptor as supplied to `simulate` :
`{pid, arrival, burst, priority?}` (scheduler.js line 4). -/
structure ProcIn where
  pid : String
  arrival : Int
  burst : Int
  priority : Option Int
deriving DecidableEq, Repr

/-- Normalized process produced by the `processes.map` at the top of
`simulate` (scheduler.js lines 11-16): `priority` defaulted to 0. -/
structure NProc where
  pid : String
  arrival : Int
  burst : Int
  priority : Int
deriving DecidableEq, Repr

/-- Per-process runtime state: the entries of the `procs` array built at the
top of every simulator (e.g. scheduler.js line 71), plus the `turnaround` and
`waiting` fields attached at finalization (lines 128-133). Before
finalization the JS objects do not carry `turnaround`/`waiting`; they are
modelled as `Int` fields holding 0 until finalization sets them. -/
structure Proc where
  pid : String
  arrival : Int
  burst : Int
  priority : Int
  remaining : Int
  startTime : Option Int
  completionTime : Option Int
  enqueued : Bool
  turnaround : Int
  waiting : Int
deriving DecidableEq, Repr

/-- The per-process record copied into snapshots by `makeProcessState`
(scheduler.js lines 36-46). -/
structure PState where
  pid : String
  arrival : Int
  burst : Int
  remaining : Int
  startTime : Option Int
  completionTime : Option Int
  priority : Int
deriving DecidableEq, Repr

/-- A `snapshotState` record (scheduler.js lines 48-55). -/
structure Snapshot where
  time : Int
  cpu : Option String
  ready : List String
  procs : List PState
deriving DecidableEq, Repr

/-- A trace entry (e.g. scheduler.js line 116): `{time, cpu, ready, event}`. -/
structure TraceEvent where
  time : Int
  cpu : Option String
  ready : List String
  event : String
deriving DecidableEq, Repr

/-- JS number values reachable in the statistics computation: finite values
(as exact rationals), `NaN`, `Infinity` and `-Infinity`. -/
inductive JsNum where
  | num (q : ℚ)
  | nan
  | posInf
  | negInf
deriving DecidableEq, Repr

/-- JS `Math.max` on two values: `NaN` absorbs, otherwise the larger with the
usual infinity rules. -/
def jsMax2 : JsNum → JsNum → JsNum
  | .nan, _ => .nan
  | _, .nan => .nan
  | .posInf, _ => .posInf
  | _, .posInf => .posInf
  | .negInf, b => b
  | a, .negInf => a
  | .num a, .num b => .num (max a b)

/-- JS `Math.min` on two values. -/
def jsMin2 : JsNum → JsNum → JsNum
  | .nan, _ => .nan
  | _, .nan => .nan
  | .negInf, _ => .negInf
  | _, .negInf => .negInf
  | .posInf, b => b
  | a, .posInf => a
  | .num a, .num b => .num (min a b)

/-- JS `Math.max(...xs)` over a list of finite values: `-Infinity` on the
empty list (`Math.max()` with no arguments). -/
def jsMaxList (xs : List ℚ) : JsNum :=
  xs.foldl (fun acc q => jsMax2 acc (.num q)) .negInf

/-- JS `Math.min(...xs)` over a list of finite values: `Infinity` on the
empty list. -/
def jsMinList (xs : List ℚ) : JsNum :=
  xs.foldl (fun acc q => jsMin2 acc (.num q)) .posInf

/-- JS subtraction on the modelled values. -/
def jsSub : JsNum → JsNum → JsNum
  | .nan, _ => .nan
  | _, .nan => .nan
  | .posInf, .posInf => .nan
  | .posInf, _ => .posInf
  | .negInf, .negInf => .nan
  | .negInf, _ => .negInf
  | .num _, .posInf => .negInf
  | .num _, .negInf => .posInf
  | .num a, .num b => .num (a - b)

/-- JS division on the modelled values: `0/0 = NaN`, `x/0 = ±Infinity` for
`x ≠ 0` (the divisors reached in the source are non-negative). -/
def jsDiv : JsNum → JsNum → JsNum
  | .nan, _ => .nan
  | _, .nan => .nan
  | .num a, .num b =>
      if b = 0 then (if a = 0 then .nan else if 0 < a then .posInf else .negInf)
      else .num (a / b)
  | .posInf, .num b => if 0 ≤ b then .posInf else .negInf
  | .negInf, .num b => if 0 ≤ b then .negInf else .posInf
  | .num _, .posInf => .num 0
  | .num _, .negInf => .num 0
  | .posInf, .posInf => .nan
  | .posInf, .negInf => .nan
  | .negInf, .posInf => .nan
  | .negInf, .negInf => .nan

/-- The statistics record returned by `computeStats` (scheduler.js lines
57-65); `processes` holds the deep copy of the finalized process states. -/
structure Stats where
  avgWaiting : JsNum
  avgTurnaround : JsNum
  makespan : JsNum
  throughput : JsNum
  processes : List Proc
deriving DecidableEq, Repr

/-- The record returned by every simulator:
`{ trace, historySnapshots, stats }` (scheduler.js line 135). -/
structure SimResult where
  trace : List TraceEvent
  historySnapshots : List Snapshot
  stats : Stats
deriving DecidableEq, Repr

/-- The `options` object accepted by `simulate` (scheduler.js line 6).
`none` models an absent or `null` entry (both are handled identically by the
`??` operator in the source). -/
structure SimOptions where
  quantum : Option Int := none
  mlqFgQuantum : Option Int := none
  mlqBgQuantum : Option Int := none
deriving DecidableEq, Repr

/-! ## Common helpers -/

/-- Mutation of the first array element satisfying a predicate: the effect of
`const p = procs.find(pred); <mutate p>` on the surrounding array. -/
def updateFirst {α : Type} (f : α → Bool) (g : α → α) : List α → List α
  | [] => []
  | a :: as => if f a then g a :: as else a :: updateFirst f g as

/-- `makeProcessState` (scheduler.js lines 36-46). -/
def makeProcessState (list : List Proc) : List PState :=
  list.map fun p =>
    { pid := p.pid, arrival := p.arrival, burst := p.burst,
      remaining := p.remaining, startTime := p.startTime,
      completionTime := p.completionTime, priority := p.priority }

/-- `snapshotState` (scheduler.js lines 48-55). -/
def snapshotState (time : Int) (cpu : Option String) (procs : List Proc)
    (ready : List String) : Snapshot :=
  { time := time, cpu := cpu, ready := ready, procs := makeProcessState procs }

/-- `computeStats` (scheduler.js lines 57-65). The `reduce` folds are over
finite integers; division and `Math.max`/`Math.min` use the JS-number model.
`completionTime` is always set by finalization before `computeStats` runs; the
`getD 0` default is never reached on the source's call sites. `deepCopy` of
the process array is the identity in the pure model. -/
def computeStats (procs : List Proc) : Stats :=
  let total : ℚ := procs.length
  let avgWaiting :=
    jsDiv (.num (procs.foldl (fun s x => s + ((x.turnaround : ℚ) - (x.burst : ℚ))) 0)) (.num total)
  let avgTurnaround :=
    jsDiv (.num (procs.foldl (fun s x => s + (x.turnaround : ℚ)) 0)) (.num total)
  let makespan :=
    jsSub (jsMaxList (procs.map fun p => ((p.completionTime.getD 0 : Int) : ℚ)))
          (jsMinList (procs.map fun p => ((p.arrival : Int) : ℚ)))
  let lastTime := jsMaxList (procs.map fun p => ((p.completionTime.getD 0 : Int) : ℚ))
  let throughput := jsDiv (.num total) (jsMax2 (.num 1) lastTime)
  { avgWaiting := avgWaiting, avgTurnaround := avgTurnaround,
    makespan := makespan, throughput := throughput, processes := procs }

/-! ## Generic simulation state

Every simulator owns `time`, the `procs` array, a ready structure (a single
pid queue for RR/FCFS, a pid list standing for the object references of
`readyList` in SJF/Priority, a foreground/background queue pair for MLQ),
the snapshot `history` and the `trace`. -/

structure SimState (ρ : Type) where
  time : Int
  procs : List Proc
  ready : ρ
  history : List Snapshot
  trace : List TraceEvent
deriving DecidableEq

/-- The admission condition of every `enqueueArrivals`
(e.g. scheduler.js line 81): `!p.enqueued && p.arrival <= time && p.remaining > 0`. -/
def admitFilter (time : Int) (p : Proc) : Bool :=
  !p.enqueued && decide (p.arrival ≤ time) && decide (0 < p.remaining)

/-- `enqueueArrivals` (e.g. scheduler.js lines 79-86): push the pid of every
not-yet-admitted arrived process with remaining work onto the ready
structure (in `procs` order, routed by `push`) and mark it enqueued. -/
def enqueueArrivals {ρ : Type} (push : List Proc → ρ → ρ) (st : SimState ρ) :
    SimState ρ :=
  { st with
    ready := push (st.procs.filter (admitFilter st.time)) st.ready
    procs := st.procs.map fun p =>
      if admitFilter st.time p then { p with enqueued := true } else p }

/-- `p.remaining -= 1` through the array (the running process is the first
array entry with the given pid, as found by `procs.find`). -/
def decrement (pid : String) (procs : List Proc) : List Proc :=
  updateFirst (fun x => x.pid == pid) (fun p => { p with remaining := p.remaining - 1 }) procs

/-- One unit of CPU execution, the body of every run loop (e.g. scheduler.js
lines 113-118): decrement `remaining`, push the snapshot and the trace event
showing the post-decrement process states, advance time, admit arrivals. -/
def execUnit {ρ : Type} (view : ρ → List String) (push : List Proc → ρ → ρ)
    (pid : String) (st : SimState ρ) : SimState ρ :=
  let procs := decrement pid st.procs
  enqueueArrivals push
    { st with
      procs := procs
      history := st.history ++ [snapshotState st.time (some pid) procs (view st.ready)]
      trace := st.trace ++
        [{ time := st.time, cpu := some pid, ready := view st.ready,
           event := "exec(" ++ pid ++ ")" }]
      time := st.time + 1 }

/-- `n` consecutive units of CPU execution for `pid`. -/
def execUnits {ρ : Type} (view : ρ → List String) (push : List Proc → ρ → ρ)
    (pid : String) : Nat → SimState ρ → SimState ρ
  | 0, st => st
  | n+1, st => execUnits view push pid n (execUnit view push pid st)

/-- One idle time unit (e.g. scheduler.js lines 99-103): emit an idle
snapshot/trace pair and advance time. -/
def idleUnit {ρ : Type} (idleReady : ρ → List String) (st : SimState ρ) :
    SimState ρ :=
  { st with
    history := st.history ++ [snapshotState st.time none st.procs (idleReady st.ready)]
    trace := st.trace ++
      [{ time := st.time, cpu := none, ready := idleReady st.ready, event := "idle" }]
    time := st.time + 1 }

/-- `n` idle time units (`while (time < jumpTo)`). -/
def idleUnits {ρ : Type} (idleReady : ρ → List String) :
    Nat → SimState ρ → SimState ρ
  | 0, st => st
  | n+1, st => idleUnits idleReady n (idleUnit idleReady st)

/-- The `while` condition of every simulator loop (e.g. scheduler.js line
90): some process has remaining work, or the ready structure is non-empty. -/
def loopCond {ρ : Type} (isEmpty : ρ → Bool) (st : SimState ρ) : Bool :=
  st.procs.any (fun p => decide (0 < p.remaining)) || !isEmpty st.ready

/-- `procs.find(p => !p.enqueued && p.remaining > 0)` (e.g. scheduler.js
line 96). -/
def findNext (procs : List Proc) : Option Proc :=
  procs.find? fun p => !p.enqueued && decide (0 < p.remaining)

/-- The shared simulator loop (e.g. scheduler.js lines 90-125): while the
loop condition holds and the iteration budget is not exhausted, admit
arrivals; if the ready structure is empty either terminate (no future
arrival) or emit idle units up to the next arrival and admit it; otherwise
serve one scheduling decision via `serve`. -/
def simLoop {ρ : Type} (isEmpty : ρ → Bool) (push : List Proc → ρ → ρ)
    (idleReady : ρ → List String) (serve : SimState ρ → SimState ρ) :
    Nat → SimState ρ → SimState ρ
  | 0, st => st
  | fuel+1, st =>
    if loopCond isEmpty st then
      let st1 := enqueueArrivals push st
      if isEmpty st1.ready then
        match findNext st1.procs with
        | none => st1
        | some next =>
            simLoop isEmpty push idleReady serve fuel
              (enqueueArrivals push
                (idleUnits idleReady (next.arrival - st1.time).toNat st1))
      else simLoop isEmpty push idleReady serve fuel (serve st1)
    else st

/-- The states at which a scheduling decision is made: the sequence of
post-admission states of the iterations of `simLoop` that take the serve
branch (the selection points of the simulation). -/
def simLoopStates {ρ : Type} (isEmpty : ρ → Bool) (push : List Proc → ρ → ρ)
    (idleReady : ρ → List String) (serve : SimState ρ → SimState ρ) :
    Nat → SimState ρ → List (SimState ρ)
  | 0, _ => []
  | fuel+1, st =>
    if loopCond isEmpty st then
      let st1 := enqueueArrivals push st
      if isEmpty st1.ready then
        match findNext st1.procs with
        | none => []
        | some next =>
            simLoopStates isEmpty push idleReady serve fuel
              (enqueueArrivals push
                (idleUnits idleReady (next.arrival - st1.time).toNat st1))
      else st1 :: simLoopStates isEmpty push idleReady serve fuel (serve st1)
    else []

/-! ## Per-algorithm instantiations -/

/-- Ready push for the single-queue algorithms (RR/FCFS and the pid view of
`readyList` in SJF/Priority): append the admitted pids at the tail. -/
def rrPush (newly : List Proc) (q : List String) : List String :=
  q ++ newly.map (fun p => p.pid)

/-- Ready view for the single-queue algorithms. -/
def rrView (q : List String) : List String := q

/-- `if (p.startTime === null) p.startTime = time` applied through the array. -/
def setStartTime (pid : String) (time : Int) (procs : List Proc) : List Proc :=
  updateFirst (fun x => x.pid == pid)
    (fun p => if p.startTime = none then { p with startTime := some time } else p) procs

/-- `p.completionTime = time` applied through the array. -/
def setCompletion (pid : String) (time : Int) (procs : List Proc) : List Proc :=
  updateFirst (fun x => x.pid == pid) (fun p => { p with completionTime := some time }) procs

/-- One RR scheduling turn (scheduler.js lines 108-124): shift the queue
head, set its start time, run `min(quantum, remaining)` units, then either
record completion or re-enqueue at the tail. The `find` cannot fail on any
state reachable from a simulator entry point (queue pids come from `procs`);
the model returns the state unchanged in that dead branch. -/
def serveRR (quantum : Int) (st : SimState (List String)) : SimState (List String) :=
  match st.ready with
  | [] => st
  | pid :: rest =>
    match st.procs.find? (fun x => x.pid == pid) with
    | none => { st with ready := rest }
    | some p =>
      let st1 : SimState (List String) :=
        { st with ready := rest, procs := setStartTime pid st.time st.procs }
      let run := min quantum p.remaining
      let st2 := execUnits rrView rrPush pid run.toNat st1
      match st2.procs.find? (fun x => x.pid == pid) with
      | none => st2
      | some p2 =>
        if p2.remaining = 0 then { st2 with procs := setCompletion pid st2.time st2.procs }
        else { st2 with ready := st2.ready ++ [pid] }

/-- One FCFS scheduling turn (scheduler.js lines 173-185): shift the queue
head, set its start time, run to completion, record completion. -/
def serveFCFS (st : SimState (List String)) : SimState (List String) :=
  match st.ready with
  | [] => st
  | pid :: rest =>
    match st.procs.find? (fun x => x.pid == pid) with
    | none => { st with ready := rest }
    | some p =>
      let st1 : SimState (List String) :=
        { st with ready := rest, procs := setStartTime pid st.time st.procs }
      let st2 := execUnits rrView rrPush pid p.remaining.toNat st1
      { st2 with procs := setCompletion pid st2.time st2.procs }

/-- The process a `readyList` entry refers to: `readyList` in SJF/Priority
holds references into `procs`, modelled as pids resolved against the array;
the fallback record is never reached on states where queue pids come from
`procs`. -/
def procKey (procs : List Proc) (pid : String) : Proc :=
  (procs.find? (fun x => x.pid == pid)).getD
    { pid := "", arrival := 0, burst := 0, priority := 0, remaining := 0,
      startTime := none, completionTime := none, enqueued := false,
      turnaround := 0, waiting := 0 }

/-- `readyList.sort((a,b)=> a.remaining - b.remaining || a.arrival - b.arrival)`
(scheduler.js line 232): stable sort by remaining then arrival. -/
def sjfSort (procs : List Proc) (ready : List String) : List String :=
  List.insertionSort
    (fun a b =>
      (procKey procs a).remaining < (procKey procs b).remaining ∨
      ((procKey procs a).remaining = (procKey procs b).remaining ∧
       (procKey procs a).arrival ≤ (procKey procs b).arrival))
    ready

/-- One SJF scheduling turn (scheduler.js lines 231-244): sort the ready
list by (remaining, arrival), shift the head, run to completion. -/
def serveSJF (st : SimState (List String)) : SimState (List String) :=
  let sorted := sjfSort st.procs st.ready
  match sorted with
  | [] => { st with ready := sorted }
  | pid :: rest =>
    match st.procs.find? (fun x => x.pid == pid) with
    | none => { st with ready := rest }
    | some p =>
      let st1 : SimState (List String) :=
        { st with ready := rest, procs := setStartTime pid st.time st.procs }
      let st2 := execUnits rrView rrPush pid p.remaining.toNat st1
      { st2 with procs := setCompletion pid st2.time st2.procs }

/-- `readyList.sort((a,b)=> a.priority - b.priority || a.arrival - b.arrival
|| a.burst - b.burst)` (scheduler.js line 292). -/
def prioritySort (procs : List Proc) (ready : List String) : List String :=
  List.insertionSort
    (fun a b =>
      (procKey procs a).priority < (procKey procs b).priority ∨
      ((procKey procs a).priority = (procKey procs b).priority ∧
       ((procKey procs a).arrival < (procKey procs b).arrival ∨
        ((procKey procs a).arrival = (procKey procs b).arrival ∧
         (procKey procs a).burst ≤ (procKey procs b).burst))))
    ready

/-- One Priority scheduling turn (scheduler.js lines 291-304). -/
def servePriority (st : SimState (List String)) : SimState (List String) :=
  let sorted := prioritySort st.procs st.ready
  match sorted with
  | [] => { st with ready := sorted }
  | pid :: rest =>
    match st.procs.find? (fun x => x.pid == pid) with
    | none => { st with ready := rest }
    | some p =>
      let st1 : SimState (List String) :=
        { st with ready := rest, procs := setStartTime pid st.time st.procs }
      let st2 := execUnits rrView rrPush pid p.remaining.toNat st1
      { st2 with procs := setCompletion pid st2.time st2.procs }

/-- MLQ ready structure: foreground queue and background queue. -/
abbrev MLQReady : Type := List String × List String

/-- MLQ arrival routing (scheduler.js lines 331-339): priority 0 pids to the
foreground queue, all others to the background queue, in `procs` order. -/
def mlqPush (newly : List Proc) (r : MLQReady) : MLQReady :=
  (r.1 ++ (newly.filter (fun p => p.priority == 0)).map (fun p => p.pid),
   r.2 ++ (newly.filter (fun p => !(p.priority == 0))).map (fun p => p.pid))

/-- MLQ snapshot view: `[...fgQueue, ...bgQueue]` (scheduler.js line 368). -/
def mlqView (r : MLQReady) : List String := r.1 ++ r.2

/-- MLQ loop emptiness test: both queues empty (scheduler.js line 347). -/
def mlqIsEmpty (r : MLQReady) : Bool := r.1.isEmpty && r.2.isEmpty

/-- One MLQ scheduling turn (scheduler.js lines 360-401): serve the
foreground queue with Round Robin (`fgQuantum`) if non-empty; otherwise
serve the background queue head, to completion when `bgQuantum` is null, or
for `min(bgQuantum, remaining)` units with tail re-enqueue otherwise. -/
def serveMLQ (fgQuantum : Int) (bgQuantum : Option Int)
    (st : SimState MLQReady) : SimState MLQReady :=
  match st.ready.1 with
  | pid :: rest =>
    match st.procs.find? (fun x => x.pid == pid) with
    | none => { st with ready := (rest, st.ready.2) }
    | some p =>
      let st1 : SimState MLQReady :=
        { st with ready := (rest, st.ready.2), procs := setStartTime pid st.time st.procs }
      let run := min fgQuantum p.remaining
      let st2 := execUnits mlqView mlqPush pid run.toNat st1
      match st2.procs.find? (fun x => x.pid == pid) with
      | none => st2
      | some p2 =>
        if p2.remaining = 0 then { st2 with procs := setCompletion pid st2.time st2.procs }
        else { st2 with ready := (st2.ready.1 ++ [pid], st2.ready.2) }
  | [] =>
    match st.ready.2 with
    | [] => st
    | pid :: rest =>
      match st.procs.find? (fun x => x.pid == pid) with
      | none => { st with ready := (st.ready.1, rest) }
      | some p =>
        let st1 : SimState MLQReady :=
          { st with ready := (st.ready.1, rest), procs := setStartTime pid st.time st.procs }
        match bgQuantum with
        | none =>
          let st2 := execUnits mlqView mlqPush pid p.remaining.toNat st1
          { st2 with procs := setCompletion pid st2.time st2.procs }
        | some bq =>
          let run := min bq p.remaining
          let st2 := execUnits mlqView mlqPush pid run.toNat st1
          match st2.procs.find? (fun x => x.pid == pid) with
          | none => st2
          | some p2 =>
            if p2.remaining = 0 then
              { st2 with procs := setCompletion pid st2.time st2.procs }
            else { st2 with ready := (st2.ready.1, st2.ready.2 ++ [pid]) }

/-! ## Simulator entry points -/

/-- Runtime state construction at the top of every simulator (e.g.
scheduler.js line 71): `{...p, remaining: p.burst, startTime: null,
completionTime: null, enqueued: false}`. -/
def initProcs (ps : List NProc) : List Proc :=
  ps.map fun p =>
    { pid := p.pid, arrival := p.arrival, burst := p.burst,
      priority := p.priority, remaining := p.burst, startTime := none,
      completionTime := none, enqueued := false, turnaround := 0, waiting := 0 }

/-- `procs.sort((a,b)=> a.arrival - b.arrival)` (e.g. scheduler.js line 72):
stable sort by arrival. -/
def sortByArrival (procs : List Proc) : List Proc :=
  List.insertionSort (fun a b => a.arrival ≤ b.arrival) procs

/-- Initial simulator state followed by the initial `enqueueArrivals()` call
(e.g. scheduler.js line 88). -/
def initState {ρ : Type} (ready : ρ) (push : List Proc → ρ → ρ)
    (procs : List Proc) : SimState ρ :=
  enqueueArrivals push
    { time := 0, procs := procs, ready := ready, history := [], trace := [] }

/-- The finalization block of every simulator (e.g. scheduler.js lines
128-133): default `completionTime` to the final time, compute `turnaround`
and `waiting`, default `startTime` to `arrival`. -/
def finalizeProcs (time : Int) (procs : List Proc) : List Proc :=
  procs.map fun p =>
    let ct := p.completionTime.getD time
    { p with
      completionTime := some ct
      turnaround := ct - p.arrival
      waiting := (ct - p.arrival) - p.burst
      startTime := some (p.startTime.getD p.arrival) }

/-- The iteration ceiling `maxIter` (e.g. scheduler.js line 77). -/
def maxIter : Nat := 200000

/-- The shared return shape of every simulator (e.g. scheduler.js line
135): finalize metrics, then `{ trace, historySnapshots, stats }`. -/
def finishRun {ρ : Type} (st : SimState ρ) : SimResult :=
  let procs := finalizeProcs st.time st.procs
  { trace := st.trace, historySnapshots := st.history, stats := computeStats procs }

/-- `simulateRR` (scheduler.js lines 69-136). -/
def simulateRR (processes : List NProc) (quantum : Int) : SimResult :=
  finishRun
    (simLoop List.isEmpty rrPush rrView (serveRR quantum) maxIter
      (initState [] rrPush (sortByArrival (initProcs processes))))

/-- `simulateFCFS` (scheduler.js lines 140-196). -/
def simulateFCFS (processes : List NProc) : SimResult :=
  finishRun
    (simLoop List.isEmpty rrPush rrView serveFCFS maxIter
      (initState [] rrPush (sortByArrival (initProcs processes))))

/-- `simulateSJF` (scheduler.js lines 200-255). Note: SJF does not sort
`procs` by arrival, and its idle snapshots show an empty ready list. -/
def simulateSJF (processes : List NProc) : SimResult :=
  finishRun
    (simLoop List.isEmpty rrPush (fun _ => []) serveSJF maxIter
      (initState [] rrPush (initProcs processes)))

/-- `simulatePriority` (scheduler.js lines 260-315). -/
def simulatePriority (processes : List NProc) : SimResult :=
  finishRun
    (simLoop List.isEmpty rrPush (fun _ => []) servePriority maxIter
      (initState [] rrPush (initProcs processes)))

/-- `simulateMLQ` (scheduler.js lines 323-412). -/
def simulateMLQ (processes : List NProc) (fgQuantum : Int)
    (bgQuantum : Option Int) : SimResult :=
  finishRun
    (simLoop mlqIsEmpty mlqPush (fun _ => []) (serveMLQ fgQuantum bgQuantum) maxIter
      (initState ([], []) mlqPush (sortByArrival (initProcs processes))))

/-- `simulate` (scheduler.js lines 10-32): normalize processes, dispatch on
the algorithm tag; an unrecognized tag falls through to Round Robin. Note
the MLQ case passes `options.mlqBgQuantum ?? 4`, i.e. always a concrete
background quantum, never null. -/
def simulate (algorithm : String) (processes : List ProcIn)
    (options : SimOptions) : SimResult :=
  let procsIn := processes.map fun p =>
    NProc.mk p.pid p.arrival p.burst (p.priority.getD 0)
  match algorithm with
  | "RR" => simulateRR procsIn (options.quantum.getD 4)
  | "FCFS" => simulateFCFS procsIn
  | "SJF" => simulateSJF procsIn
  | "PRIORITY" => simulatePriority procsIn
  | "MLQ" => simulateMLQ procsIn (options.mlqFgQuantum.getD 2)
      (some (options.mlqBgQuantum.getD 4))
  | _ => simulateRR procsIn (options.quantum.getD 4)

/-! ## Preservation lemmas: the process array's identity column

Every state operation of every simulator leaves the list of pids of `procs`
unchanged (mutations only touch other fields); in particular the array's
length is invariant across a run. -/

/-- The identity column of the process array. -/
def pids (procs : List Proc) : List String := procs.map fun p => p.pid

/-- Maximum of a non-empty rational list (spec-side: `max` of the values). -/
def qListMax : List ℚ → ℚ
  | [] => 0
  | x :: xs => xs.foldl max x

/-- Minimum of a non-empty rational list (spec-side: `min` of the values). -/
def qListMin : List ℚ → ℚ
  | [] => 0
  | x :: xs => xs.foldl min x

/-- The log invariant: history and trace agree pointwise on (time, cpu,
ready), trace times are exactly `0, 1, 2, ...`, and the clock equals the
number of emitted entries. -/
def LogInv {ρ : Type} (st : SimState ρ) : Prop :=
  st.history.map (fun s => (s.time, s.cpu, s.ready)) =
    st.trace.map (fun e => (e.time, e.cpu, e.ready)) ∧
  st.trace.map (fun e => e.time) =
    (List.range st.trace.length).map (fun n : Nat => (n : Int)) ∧
  st.time = (st.trace.length : Int)

/-- Number of trace events in which `pid` occupies the CPU. -/
def execCount (pid : String) (tr : List TraceEvent) : Nat :=
  (tr.filter (fun e => e.cpu == some pid)).length

/-- The per-process execution-count invariant: at every instant,
`remaining = burst - (units executed so far)`. -/
def CntInv {ρ : Type} (st : SimState ρ) : Prop :=
  ∀ p ∈ st.procs, p.remaining = p.burst - (execCount p.pid st.trace : Int)

/-- The snapshot invariant (claim C10): every emitted snapshot occupied by
`pid` copies a process record for `pid` whose `remaining` equals its `burst`
minus the number of execution units of `pid` in the trace up to and
including this snapshot's own unit. -/
def SnapInv {ρ : Type} (st : SimState ρ) : Prop :=
  ∀ (i : Nat) (hi : i < st.history.length) (pid : String),
    (st.history[i]).cpu = some pid →
    ∃ e, ((st.history[i]).procs.find? (fun x => x.pid == pid)) = some e ∧
      e.remaining = e.burst - (execCount pid (st.trace.take (i + 1)) : Int)

/-- Distinctness of the pids in the process array. -/
def NodupP {ρ : Type} (st : SimState ρ) : Prop := (pids st.procs).Nodup

/-- The running process is present in the array. -/
def HasPid (pid : String) (l : List Proc) : Prop :=
  (l.find? (fun x => x.pid == pid)).isSome = true

/-- The bundled run invariant for claim C10. -/
def SimInv {ρ : Type} (st : SimState ρ) : Prop :=
  LogInv st ∧ CntInv st ∧ SnapInv st ∧ NodupP st

/-- The snapshot copy of one process record (the body of the `map` in
`makeProcessState`). -/
def toPState (p : Proc) : PState :=
  { pid := p.pid, arrival := p.arrival, burst := p.burst,
    remaining := p.remaining, startTime := p.startTime,
    completionTime := p.completionTime, priority := p.priority }

/-- The MLQ queue invariant at selection points: every admitted incomplete
foreground (priority 0) process is in the foreground queue; every
background-queue pid belongs to a non-zero-priority process; pids are
distinct. -/
def MLQInv (st : SimState MLQReady) : Prop :=
  (∀ p ∈ st.procs, p.priority = 0 → p.enqueued = true → 0 < p.remaining →
    p.pid ∈ st.ready.1) ∧
  (∀ pd ∈ st.ready.2, ∀ p ∈ st.procs, p.pid = pd → p.priority ≠ 0) ∧
  (pids st.procs).Nodup

/-- `MLQInv` with the currently served pid exempted from the foreground
obligation (it is out of the queue while the CPU runs it). -/
def MLQInvX (xpid : String) (st : SimState MLQReady) : Prop :=
  (∀ p ∈ st.procs, p.pid ≠ xpid → p.priority = 0 → p.enqueued = true →
    0 < p.remaining → p.pid ∈ st.ready.1) ∧
  (∀ pd ∈ st.ready.2, ∀ p ∈ st.procs, p.pid = pd → p.priority ≠ 0) ∧
  (pids st.procs).Nodup

/-- Every process sharing the given pid has non-zero priority (used for the
served background process). -/
def PrioOfPid (xpid : String) (l : List Proc) : Prop :=
  ∀ p ∈ l, p.pid = xpid → p.priority ≠ 0

/-- The runtime record of the ceiling run's single process with remaining
work `r`. -/
def rrUnitProc (r : Int) : Proc :=
  { pid := "P1", arrival := 0, burst := 1000000, priority := 0,
    remaining := r, startTime := some 0, completionTime := none,
    enqueued := true, turnaround := 0, waiting := 0 }

/-- The loop state of the ceiling run at the top of iteration `k`
(arbitrary accumulated history and trace). -/
def rrFuelState (k : Nat) (h : List Snapshot) (tr : List TraceEvent) :
    SimState (List String) :=
  { time := 4 * (k : Int), procs := [rrUnitProc (1000000 - 4 * (k : Int))],
    ready := ["P1"], history := h, trace := tr }

/-- The never-admitted invariant for non-positive-burst processes (`rp`
views the pids held in the ready structure): pids are distinct, and every
process whose burst is non-positive still carries its initial runtime
fields, sits in no ready queue, and has executed no trace unit. -/
def NPInv {ρ : Type} (rp : ρ → List String) (st : SimState ρ) : Prop :=
  (pids st.procs).Nodup ∧
  ∀ p ∈ st.procs, p.burst ≤ 0 →
    p.remaining = p.burst ∧ p.startTime = none ∧ p.completionTime = none ∧
    p.enqueued = false ∧ p.pid ∉ rp st.ready ∧
    ∀ e ∈ st.trace, e.cpu ≠ some p.pid

/-- A ready-push routine only ever adds pids of the pushed processes. -/
def PushSub {ρ : Type} (rp : ρ → List String) (push : List Proc → ρ → ρ) : Prop :=
  ∀ (l : List Proc) (r : ρ) (x : String), x ∈ rp (push l r) → x ∈ rp r ∨ x ∈ pids l

theorem pids_updateFirst (f : Proc → Bool) (g : Proc → Proc)
    (hg : ∀ a, (g a).pid = a.pid) :
    ∀ l : List Proc, pids (updateFirst f g l) = pids l := by
  intro l
  induction l with
  | nil => rfl
  | cons a as ih =>
    by_cases hfa : f a = true
    · simp [updateFirst, hfa, pids, hg a]
    · simp only [updateFirst, hfa, if_false, Bool.false_eq_true]
      simpa [pids] using congrArg (fun l => l) ih

theorem pids_map_enqueue (time : Int) (l : List Proc) :
    pids (l.map fun p => if admitFilter time p then { p with enqueued := true } else p)
      = pids l := by
  induction l with
  | nil => rfl
  | cons a as ih =>
    by_cases h : admitFilter time a = true <;> simp [pids, h] <;>
      simpa [pids] using ih

theorem pids_enqueueArrivals {ρ : Type} (push : List Proc → ρ → ρ)
    (st : SimState ρ) :
    pids (enqueueArrivals push st).procs = pids st.procs :=
  pids_map_enqueue st.time st.procs

theorem pids_decrement (pid : String) (procs : List Proc) :
    pids (decrement pid procs) = pids procs := by
  unfold decrement
  apply pids_updateFirst
  intro a
  rfl

theorem pids_setStartTime (pid : String) (time : Int) (procs : List Proc) :
    pids (setStartTime pid time procs) = pids procs := by
  unfold setStartTime
  apply pids_updateFirst
  intro a
  by_cases h : a.startTime = none <;> simp [h]

theorem pids_setCompletion (pid : String) (time : Int) (procs : List Proc) :
    pids (setCompletion pid time procs) = pids procs := by
  unfold setCompletion
  apply pids_updateFirst
  intro a
  rfl

theorem pids_execUnit {ρ : Type} (view : ρ → List String)
    (push : List Proc → ρ → ρ) (pid : String) (st : SimState ρ) :
    pids (execUnit view push pid st).procs = pids st.procs := by
  unfold execUnit
  rw [pids_enqueueArrivals]
  exact pids_decrement pid st.procs

theorem pids_execUnits {ρ : Type} (view : ρ → List String)
    (push : List Proc → ρ → ρ) (pid : String) :
    ∀ (n : Nat) (st : SimState ρ),
      pids (execUnits view push pid n st).procs = pids st.procs := by
  intro n
  induction n with
  | zero => intro st; rfl
  | succ n ih =>
    intro st
    rw [execUnits, ih, pids_execUnit]

theorem idleUnit_procs {ρ : Type} (idleReady : ρ → List String)
    (st : SimState ρ) : (idleUnit idleReady st).procs = st.procs := rfl

theorem idleUnits_procs {ρ : Type} (idleReady : ρ → List String) :
    ∀ (n : Nat) (st : SimState ρ),
      (idleUnits idleReady n st).procs = st.procs := by
  intro n
  induction n with
  | zero => intro st; rfl
  | succ n ih => intro st; rw [idleUnits, ih, idleUnit_procs]

theorem pids_simLoop {ρ : Type} (isEmpty : ρ → Bool) (push : List Proc → ρ → ρ)
    (idleReady : ρ → List String) (serve : SimState ρ → SimState ρ)
    (hserve : ∀ st, pids (serve st).procs = pids st.procs) :
    ∀ (fuel : Nat) (st : SimState ρ),
      pids (simLoop isEmpty push idleReady serve fuel st).procs = pids st.procs := by
  intro fuel
  induction fuel with
  | zero => intro st; rfl
  | succ fuel ih =>
    intro st
    rw [simLoop]
    by_cases hc : loopCond isEmpty st = true
    · rw [if_pos hc]
      by_cases he : isEmpty (enqueueArrivals push st).ready = true
      · rw [if_pos he]
        cases hf : findNext (enqueueArrivals push st).procs with
        | none => exact pids_enqueueArrivals push st
        | some next =>
          rw [ih, pids_enqueueArrivals, idleUnits_procs, pids_enqueueArrivals]
      · rw [if_neg he, ih, hserve, pids_enqueueArrivals]
    · rw [if_neg hc]

theorem pids_serveRR (quantum : Int) (st : SimState (List String)) :
    pids (serveRR quantum st).procs = pids st.procs := by
  unfold serveRR
  split
  · rfl
  · split
    · rfl
    · dsimp only
      split
      · rw [pids_execUnits, pids_setStartTime]
      · split
        · rw [pids_setCompletion, pids_execUnits, pids_setStartTime]
        · rw [pids_execUnits, pids_setStartTime]

theorem pids_serveFCFS (st : SimState (List String)) :
    pids (serveFCFS st).procs = pids st.procs := by
  unfold serveFCFS
  split
  · rfl
  · split
    · rfl
    · dsimp only
      rw [pids_setCompletion, pids_execUnits, pids_setStartTime]

theorem pids_serveSJF (st : SimState (List String)) :
    pids (serveSJF st).procs = pids st.procs := by
  unfold serveSJF
  dsimp only
  split
  · rfl
  · split
    · rfl
    · dsimp only
      rw [pids_setCompletion, pids_execUnits, pids_setStartTime]

theorem pids_servePriority (st : SimState (List String)) :
    pids (servePriority st).procs = pids st.procs := by
  unfold servePriority
  dsimp only
  split
  · rfl
  · split
    · rfl
    · dsimp only
      rw [pids_setCompletion, pids_execUnits, pids_setStartTime]

theorem pids_serveMLQ (fgQuantum : Int) (bgQuantum : Option Int)
    (st : SimState MLQReady) :
    pids (serveMLQ fgQuantum bgQuantum st).procs = pids st.procs := by
  unfold serveMLQ
  split
  · split
    · rfl
    · dsimp only
      split
      · rw [pids_execUnits, pids_setStartTime]
      · split
        · rw [pids_setCompletion, pids_execUnits, pids_setStartTime]
        · rw [pids_execUnits, pids_setStartTime]
  · split
    · rfl
    · split
      · rfl
      · dsimp only
        split
        · rw [pids_setCompletion, pids_execUnits, pids_setStartTime]
        · split
          · rw [pids_execUnits, pids_setStartTime]
          · split
            · rw [pids_setCompletion, pids_execUnits, pids_setStartTime]
            · rw [pids_execUnits, pids_setStartTime]

theorem pids_finalizeProcs (time : Int) (procs : List Proc) :
    pids (finalizeProcs time procs) = pids procs := by
  simp [finalizeProcs, pids]

theorem pids_initProcs (ps : List NProc) :
    pids (initProcs ps) = ps.map fun p => p.pid := by
  simp [initProcs, pids]

theorem length_sortByArrival (procs : List Proc) :
    (sortByArrival procs).length = procs.length :=
  List.length_insertionSort _ procs

theorem length_eq_of_pids {l1 l2 : List Proc} (h : pids l1 = pids l2) :
    l1.length = l2.length := by
  have := congrArg List.length h
  simpa [pids] using this

theorem pids_initState {ρ : Type} (ready : ρ) (push : List Proc → ρ → ρ)
    (procs : List Proc) :
    pids (initState ready push procs).procs = pids procs :=
  pids_enqueueArrivals push _

/-- `simulate` returns exactly one finalized process record per input
process, for every algorithm tag. -/
theorem simulate_processes_length (alg : String) (ps : List ProcIn)
    (opts : SimOptions) :
    (simulate alg ps opts).stats.processes.length = ps.length := by
  have hsorted : ∀ (nps : List NProc),
      (sortByArrival (initProcs nps)).length = nps.length := by
    intro nps
    rw [length_sortByArrival]
    simp [initProcs]
  have hRR : ∀ (nps : List NProc) (q : Int),
      (simulateRR nps q).stats.processes.length = nps.length := by
    intro nps q
    show (finalizeProcs _ _).length = _
    rw [length_eq_of_pids (pids_finalizeProcs _ _),
      length_eq_of_pids (pids_simLoop _ _ _ _ (pids_serveRR q) _ _),
      length_eq_of_pids (pids_initState _ _ _), hsorted]
  have hFCFS : ∀ (nps : List NProc),
      (simulateFCFS nps).stats.processes.length = nps.length := by
    intro nps
    show (finalizeProcs _ _).length = _
    rw [length_eq_of_pids (pids_finalizeProcs _ _),
      length_eq_of_pids (pids_simLoop _ _ _ _ pids_serveFCFS _ _),
      length_eq_of_pids (pids_initState _ _ _), hsorted]
  have hSJF : ∀ (nps : List NProc),
      (simulateSJF nps).stats.processes.length = nps.length := by
    intro nps
    show (finalizeProcs _ _).length = _
    rw [length_eq_of_pids (pids_finalizeProcs _ _),
      length_eq_of_pids (pids_simLoop _ _ _ _ pids_serveSJF _ _),
      length_eq_of_pids (pids_initState _ _ _)]
    simp [initProcs]
  have hPr : ∀ (nps : List NProc),
      (simulatePriority nps).stats.processes.length = nps.length := by
    intro nps
    show (finalizeProcs _ _).length = _
    rw [length_eq_of_pids (pids_finalizeProcs _ _),
      length_eq_of_pids (pids_simLoop _ _ _ _ pids_servePriority _ _),
      length_eq_of_pids (pids_initState _ _ _)]
    simp [initProcs]
  have hMLQ : ∀ (nps : List NProc) (fq : Int) (bq : Option Int),
      (simulateMLQ nps fq bq).stats.processes.length = nps.length := by
    intro nps fq bq
    show (finalizeProcs _ _).length = _
    rw [length_eq_of_pids (pids_finalizeProcs _ _),
      length_eq_of_pids (pids_simLoop _ _ _ _ (pids_serveMLQ fq bq) _ _),
      length_eq_of_pids (pids_initState _ _ _), hsorted]
  unfold simulate
  split <;> simp [hRR, hFCFS, hSJF, hPr, hMLQ]

/-! ## Statistics formulas (claim C8) -/

theorem foldl_add_map {α : Type} (f : α → ℚ) :
    ∀ (l : List α) (init : ℚ),
      l.foldl (fun s x => s + f x) init = init + (l.map f).sum := by
  intro l
  induction l with
  | nil => intro init; simp
  | cons a as ih =>
    intro init
    simp only [List.foldl, List.map, List.sum_cons]
    rw [ih]
    ring

theorem jsMaxList_foldl (xs : List ℚ) :
    ∀ a : ℚ, xs.foldl (fun acc q => jsMax2 acc (.num q)) (.num a)
      = .num (xs.foldl max a) := by
  induction xs with
  | nil => intro a; rfl
  | cons x xs ih => intro a; simp only [List.foldl]; rw [show jsMax2 (.num a) (.num x) = .num (max a x) from rfl, ih]

theorem jsMaxList_nonempty (x : ℚ) (xs : List ℚ) :
    jsMaxList (x :: xs) = .num (qListMax (x :: xs)) := by
  unfold jsMaxList qListMax
  simp only [List.foldl]
  rw [show jsMax2 .negInf (.num x) = .num x from rfl, jsMaxList_foldl]

theorem jsMinList_foldl (xs : List ℚ) :
    ∀ a : ℚ, xs.foldl (fun acc q => jsMin2 acc (.num q)) (.num a)
      = .num (xs.foldl min a) := by
  induction xs with
  | nil => intro a; rfl
  | cons x xs ih => intro a; simp only [List.foldl]; rw [show jsMin2 (.num a) (.num x) = .num (min a x) from rfl, ih]

theorem jsMinList_nonempty (x : ℚ) (xs : List ℚ) :
    jsMinList (x :: xs) = .num (qListMin (x :: xs)) := by
  unfold jsMinList qListMin
  simp only [List.foldl]
  rw [show jsMin2 .posInf (.num x) = .num x from rfl, jsMinList_foldl]

theorem jsDiv_num_num (a b : ℚ) (hb : b ≠ 0) :
    jsDiv (.num a) (.num b) = .num (a / b) := by
  simp [jsDiv, hb]

theorem jsMax2_num_num (a b : ℚ) :
    jsMax2 (.num a) (.num b) = .num (max a b) := rfl

theorem jsSub_num_num (a b : ℚ) :
    jsSub (.num a) (.num b) = .num (a - b) := rfl

/-- The fields of `computeStats` on a non-empty process list, in the spec's
formulation. -/
theorem computeStats_fields (procs : List Proc) (h : procs ≠ []) :
    (computeStats procs).avgWaiting =
      .num ((procs.map fun p => (p.turnaround : ℚ) - (p.burst : ℚ)).sum / procs.length) ∧
    (computeStats procs).avgTurnaround =
      .num ((procs.map fun p => (p.turnaround : ℚ)).sum / procs.length) ∧
    (computeStats procs).makespan =
      .num (qListMax (procs.map fun p => ((p.completionTime.getD 0 : Int) : ℚ)) -
            qListMin (procs.map fun p => ((p.arrival : Int) : ℚ))) ∧
    (computeStats procs).throughput =
      .num ((procs.length : ℚ) /
            max 1 (qListMax (procs.map fun p => ((p.completionTime.getD 0 : Int) : ℚ)))) := by
  obtain ⟨x, xs, rfl⟩ : ∃ x xs, procs = x :: xs := by
    cases procs with
    | nil => exact absurd rfl h
    | cons x xs => exact ⟨x, xs, rfl⟩
  have hlen : (((x :: xs : List Proc).length : ℚ)) ≠ 0 := by
    have hpos : (0 : ℚ) < ((x :: xs : List Proc).length : ℚ) := by
      exact_mod_cast Nat.succ_pos xs.length
    exact ne_of_gt hpos
  have e1 : (computeStats (x :: xs)).avgWaiting =
      jsDiv (.num ((x :: xs).foldl (fun s p => s + ((p.turnaround : ℚ) - (p.burst : ℚ))) 0))
        (.num (((x :: xs : List Proc).length : ℚ))) := rfl
  have e2 : (computeStats (x :: xs)).avgTurnaround =
      jsDiv (.num ((x :: xs).foldl (fun s p => s + (p.turnaround : ℚ)) 0))
        (.num (((x :: xs : List Proc).length : ℚ))) := rfl
  have e3 : (computeStats (x :: xs)).makespan =
      jsSub (jsMaxList ((x :: xs).map fun p => ((p.completionTime.getD 0 : Int) : ℚ)))
        (jsMinList ((x :: xs).map fun p => ((p.arrival : Int) : ℚ))) := rfl
  have e4 : (computeStats (x :: xs)).throughput =
      jsDiv (.num (((x :: xs : List Proc).length : ℚ)))
        (jsMax2 (.num 1)
          (jsMaxList ((x :: xs).map fun p => ((p.completionTime.getD 0 : Int) : ℚ)))) := rfl
  refine ⟨?_, ?_, ?_, ?_⟩
  · rw [e1, foldl_add_map, jsDiv_num_num _ _ hlen, zero_add]
  · rw [e2, foldl_add_map, jsDiv_num_num _ _ hlen, zero_add]
  · rw [e3]
    simp only [List.map]
    rw [jsMaxList_nonempty, jsMinList_nonempty, jsSub_num_num]
  · rw [e4]
    simp only [List.map]
    rw [jsMaxList_nonempty, jsMax2_num_num, jsDiv_num_num]
    have h1 : (1 : ℚ) ≤ max 1 (qListMax
        (((x.completionTime.getD 0 : Int) : ℚ) ::
          xs.map fun p => ((p.completionTime.getD 0 : Int) : ℚ))) :=
      le_max_left _ _
    exact ne_of_gt (lt_of_lt_of_le one_pos h1)

/-- For every algorithm branch, the returned `stats` record is
`computeStats` of its own `processes` field. -/
theorem simulate_stats_self (alg : String) (ps : List ProcIn)
    (opts : SimOptions) :
    (simulate alg ps opts).stats =
      computeStats ((simulate alg ps opts).stats.processes) := by
  unfold simulate
  split <;> rfl

/-- C8: for every simulation run over a non-empty process list in which all
processes complete, the returned statistics are: `avgWaiting` = mean of
`turnaround - burst`, `avgTurnaround` = mean of `turnaround`, `makespan` =
`max(completionTime) - min(arrival)`, and `throughput` = process count over
`max(1, max(completionTime))`, all over the returned per-process records. -/
theorem simulate_stats_formulas (alg : String) (ps : List ProcIn)
    (opts : SimOptions) (hne : ps ≠ [])
    (hdone : ∀ p ∈ (simulate alg ps opts).stats.processes, p.remaining = 0) :
    (simulate alg ps opts).stats.avgWaiting =
      .num (((simulate alg ps opts).stats.processes.map
        (fun p => (p.turnaround : ℚ) - (p.burst : ℚ))).sum /
        ((simulate alg ps opts).stats.processes.length : ℚ)) ∧
    (simulate alg ps opts).stats.avgTurnaround =
      .num (((simulate alg ps opts).stats.processes.map
        (fun p => (p.turnaround : ℚ))).sum /
        ((simulate alg ps opts).stats.processes.length : ℚ)) ∧
    (simulate alg ps opts).stats.makespan =
      .num (qListMax ((simulate alg ps opts).stats.processes.map
              (fun p => ((p.completionTime.getD 0 : Int) : ℚ))) -
            qListMin ((simulate alg ps opts).stats.processes.map
              (fun p => ((p.arrival : Int) : ℚ)))) ∧
    (simulate alg ps opts).stats.throughput =
      .num (((simulate alg ps opts).stats.processes.length : ℚ) /
            max 1 (qListMax ((simulate alg ps opts).stats.processes.map
              (fun p => ((p.completionTime.getD 0 : Int) : ℚ))))) := by
  have hne2 : (simulate alg ps opts).stats.processes ≠ [] := by
    intro hnil
    have := simulate_processes_length alg ps opts
    rw [hnil] at this
    exact hne (List.length_eq_zero.mp this.symm)
  have hfields := computeStats_fields _ hne2
  have hself := simulate_stats_self alg ps opts
  refine ⟨?_, ?_, ?_, ?_⟩
  · rw [hself]; exact hfields.1
  · rw [hself]; exact hfields.2.1
  · rw [hself]; exact hfields.2.2.1
  · rw [hself]; exact hfields.2.2.2

/-- Witness for C8 at a concrete completed run: a single FCFS process
`P1 (arrival 0, burst 1)`. -/
theorem simulate_stats_formulas_witness :
    (simulate "FCFS" [⟨"P1", 0, 1, none⟩] {}).stats.avgWaiting =
      .num (((simulate "FCFS" [⟨"P1", 0, 1, none⟩] {}).stats.processes.map
        (fun p => (p.turnaround : ℚ) - (p.burst : ℚ))).sum /
        ((simulate "FCFS" [⟨"P1", 0, 1, none⟩] {}).stats.processes.length : ℚ)) :=
  (simulate_stats_formulas "FCFS" [⟨"P1", 0, 1, none⟩] {} (by decide) (by decide)).1

/-! ## Claim C9 — trace/snapshot correspondence and gap-free times

Every simulator extends `history` and `trace` in lockstep: each unit of CPU
execution or idling appends one snapshot and one trace event carrying the
same time, CPU occupant and ready contents, then advances time by one. -/

theorem logInv_enqueueArrivals {ρ : Type} (push : List Proc → ρ → ρ)
    (st : SimState ρ) (h : LogInv st) : LogInv (enqueueArrivals push st) := h

theorem logInv_append_unit {ρ : Type} (st : SimState ρ) (h : LogInv st)
    (cpu : Option String) (ready : List String) (procs : List Proc) (ev : String) :
    LogInv { st with
      procs := procs
      history := st.history ++ [snapshotState st.time cpu procs ready]
      trace := st.trace ++ [TraceEvent.mk st.time cpu ready ev]
      time := st.time + 1 } := by
  obtain ⟨h1, h2, h3⟩ := h
  refine ⟨?_, ?_, ?_⟩
  · show (st.history ++ [snapshotState st.time cpu procs ready]).map
          (fun s => (s.time, s.cpu, s.ready))
        = (st.trace ++ [TraceEvent.mk st.time cpu ready ev]).map
          (fun e => (e.time, e.cpu, e.ready))
    rw [List.map_append, List.map_append, h1]
    rfl
  · show (st.trace ++ [TraceEvent.mk st.time cpu ready ev]).map
          (fun e => e.time)
        = (List.range
            (st.trace ++ [TraceEvent.mk st.time cpu ready ev]).length).map
          (fun n : Nat => (n : Int))
    rw [List.map_append, List.length_append, h2]
    simp only [List.length_singleton, List.range_succ, List.map_append, List.map_cons,
      List.map_nil]
    rw [h3]
  · show st.time + 1 =
        ((st.trace ++ [TraceEvent.mk st.time cpu ready ev]).length : Int)
    rw [List.length_append]
    simp only [List.length_singleton]
    rw [h3]
    push_cast
    ring

theorem logInv_execUnit {ρ : Type} (view : ρ → List String)
    (push : List Proc → ρ → ρ) (pid : String) (st : SimState ρ)
    (h : LogInv st) : LogInv (execUnit view push pid st) :=
  logInv_enqueueArrivals push _
    (logInv_append_unit st h (some pid) (view st.ready) (decrement pid st.procs) _)

theorem logInv_execUnits {ρ : Type} (view : ρ → List String)
    (push : List Proc → ρ → ρ) (pid : String) :
    ∀ (n : Nat) (st : SimState ρ), LogInv st →
      LogInv (execUnits view push pid n st) := by
  intro n
  induction n with
  | zero => intro st h; exact h
  | succ n ih =>
    intro st h
    exact ih _ (logInv_execUnit view push pid st h)

theorem logInv_idleUnit {ρ : Type} (idleReady : ρ → List String)
    (st : SimState ρ) (h : LogInv st) : LogInv (idleUnit idleReady st) :=
  logInv_append_unit st h none (idleReady st.ready) st.procs _

theorem logInv_idleUnits {ρ : Type} (idleReady : ρ → List String) :
    ∀ (n : Nat) (st : SimState ρ), LogInv st →
      LogInv (idleUnits idleReady n st) := by
  intro n
  induction n with
  | zero => intro st h; exact h
  | succ n ih =>
    intro st h
    exact ih _ (logInv_idleUnit idleReady st h)

theorem logInv_simLoop {ρ : Type} (isEmpty : ρ → Bool) (push : List Proc → ρ → ρ)
    (idleReady : ρ → List String) (serve : SimState ρ → SimState ρ)
    (hserve : ∀ st, LogInv st → LogInv (serve st)) :
    ∀ (fuel : Nat) (st : SimState ρ), LogInv st →
      LogInv (simLoop isEmpty push idleReady serve fuel st) := by
  intro fuel
  induction fuel with
  | zero => intro st h; exact h
  | succ fuel ih =>
    intro st h
    rw [simLoop]
    by_cases hc : loopCond isEmpty st = true
    · rw [if_pos hc]
      by_cases he : isEmpty (enqueueArrivals push st).ready = true
      · rw [if_pos he]
        cases hf : findNext (enqueueArrivals push st).procs with
        | none => exact logInv_enqueueArrivals push st h
        | some next =>
          exact ih _ (logInv_enqueueArrivals _ _
            (logInv_idleUnits _ _ _ (logInv_enqueueArrivals push st h)))
      · rw [if_neg he]
        exact ih _ (hserve _ (logInv_enqueueArrivals push st h))
    · rw [if_neg hc]
      exact h

theorem logInv_serveRR (quantum : Int) (st : SimState (List String))
    (h : LogInv st) : LogInv (serveRR quantum st) := by
  unfold serveRR
  split
  · exact h
  · split
    · exact h
    · dsimp only
      split
      · exact logInv_execUnits _ _ _ _ _ h
      · split
        · exact logInv_execUnits _ _ _ _ _ h
        · exact logInv_execUnits _ _ _ _ _ h

theorem logInv_serveFCFS (st : SimState (List String))
    (h : LogInv st) : LogInv (serveFCFS st) := by
  unfold serveFCFS
  split
  · exact h
  · split
    · exact h
    · dsimp only
      exact logInv_execUnits _ _ _ _ _ h

theorem logInv_serveSJF (st : SimState (List String))
    (h : LogInv st) : LogInv (serveSJF st) := by
  unfold serveSJF
  dsimp only
  split
  · exact h
  · split
    · exact h
    · exact logInv_execUnits _ _ _ _ _ h

theorem logInv_servePriority (st : SimState (List String))
    (h : LogInv st) : LogInv (servePriority st) := by
  unfold servePriority
  dsimp only
  split
  · exact h
  · split
    · exact h
    · exact logInv_execUnits _ _ _ _ _ h

theorem logInv_serveMLQ (fgQuantum : Int) (bgQuantum : Option Int)
    (st : SimState MLQReady) (h : LogInv st) :
    LogInv (serveMLQ fgQuantum bgQuantum st) := by
  unfold serveMLQ
  split
  · split
    · exact h
    · dsimp only
      split
      · exact logInv_execUnits _ _ _ _ _ h
      · split
        · exact logInv_execUnits _ _ _ _ _ h
        · exact logInv_execUnits _ _ _ _ _ h
  · split
    · exact h
    · split
      · exact h
      · dsimp only
        split
        · exact logInv_execUnits _ _ _ _ _ h
        · split
          · exact logInv_execUnits _ _ _ _ _ h
          · split
            · exact logInv_execUnits _ _ _ _ _ h
            · exact logInv_execUnits _ _ _ _ _ h

theorem logInv_initState {ρ : Type} (ready : ρ) (push : List Proc → ρ → ρ)
    (procs : List Proc) : LogInv (initState ready push procs) :=
  ⟨rfl, rfl, rfl⟩

/-- C9: for every algorithm tag, process list and options, the returned
`historySnapshots` and `trace` correspond 1:1 — equal length, and the entry
at each index records the same time, CPU occupant and ready contents — and
the recorded times are exactly the gap-free sequence `0, 1, 2, ...` (idle
units each emit one entry). -/
theorem simulate_trace_snapshot_correspondence (alg : String)
    (ps : List ProcIn) (opts : SimOptions) :
    (simulate alg ps opts).historySnapshots.map (fun s => (s.time, s.cpu, s.ready)) =
      (simulate alg ps opts).trace.map (fun e => (e.time, e.cpu, e.ready)) ∧
    (simulate alg ps opts).trace.map (fun e => e.time) =
      (List.range (simulate alg ps opts).trace.length).map (fun n : Nat => (n : Int)) := by
  have hRR : ∀ (nps : List NProc) (q : Int),
      LogInv (simLoop List.isEmpty rrPush rrView (serveRR q) maxIter
        (initState [] rrPush (sortByArrival (initProcs nps)))) := fun nps q =>
    logInv_simLoop _ _ _ _ (logInv_serveRR q) _ _ (logInv_initState _ _ _)
  have hFCFS : ∀ (nps : List NProc),
      LogInv (simLoop List.isEmpty rrPush rrView serveFCFS maxIter
        (initState [] rrPush (sortByArrival (initProcs nps)))) := fun nps =>
    logInv_simLoop _ _ _ _ logInv_serveFCFS _ _ (logInv_initState _ _ _)
  have hSJF : ∀ (nps : List NProc),
      LogInv (simLoop List.isEmpty rrPush (fun _ => []) serveSJF maxIter
        (initState [] rrPush (initProcs nps))) := fun nps =>
    logInv_simLoop _ _ _ _ logInv_serveSJF _ _ (logInv_initState _ _ _)
  have hPr : ∀ (nps : List NProc),
      LogInv (simLoop List.isEmpty rrPush (fun _ => []) servePriority maxIter
        (initState [] rrPush (initProcs nps))) := fun nps =>
    logInv_simLoop _ _ _ _ logInv_servePriority _ _ (logInv_initState _ _ _)
  have hMLQ : ∀ (nps : List NProc) (fq : Int) (bq : Option Int),
      LogInv (simLoop mlqIsEmpty mlqPush (fun _ => []) (serveMLQ fq bq) maxIter
        (initState ([], []) mlqPush (sortByArrival (initProcs nps)))) := fun nps fq bq =>
    logInv_simLoop _ _ _ _ (logInv_serveMLQ fq bq) _ _ (logInv_initState _ _ _)
  unfold simulate
  split
  · exact ⟨(hRR _ _).1, (hRR _ _).2.1⟩
  · exact ⟨(hFCFS _).1, (hFCFS _).2.1⟩
  · exact ⟨(hSJF _).1, (hSJF _).2.1⟩
  · exact ⟨(hPr _).1, (hPr _).2.1⟩
  · exact ⟨(hMLQ _ _ _).1, (hMLQ _ _ _).2.1⟩
  · exact ⟨(hRR _ _).1, (hRR _ _).2.1⟩

/-! ## Claim C10 — snapshots record the post-decrement remaining time

In every run loop the source decrements `p.remaining` *before* pushing the
snapshot and trace event for that time unit, so the per-process state copied
into a snapshot whose CPU occupant is `p` records `p.remaining` with the
current unit already applied: it equals `burst` minus the number of
execution units of `p` up to and including that snapshot. -/

theorem history_length_eq_trace_length {ρ : Type} (st : SimState ρ)
    (h : LogInv st) : st.history.length = st.trace.length := by
  have := congrArg List.length h.1
  simpa using this

theorem execCount_append_none (x : String) (tr : List TraceEvent)
    (e : TraceEvent) (he : e.cpu = none) :
    execCount x (tr ++ [e]) = execCount x tr := by
  simp [execCount, List.filter_append, he]

theorem execCount_append_exec (x pid : String) (tr : List TraceEvent)
    (t : Int) (r : List String) (ev : String) :
    execCount x (tr ++ [TraceEvent.mk t (some pid) r ev]) =
      execCount x tr + (if pid = x then 1 else 0) := by
  by_cases h : pid = x
  · simp [execCount, List.filter_append, h]
  · have : ((some pid == some x) : Bool) = false := by
      simp [h]
    simp [execCount, List.filter_append, this, h]

theorem mem_updateFirst {α : Type} {f : α → Bool} {g : α → α} :
    ∀ {l : List α} {q : α}, q ∈ updateFirst f g l →
      q ∈ l ∨ ∃ q0 ∈ l, f q0 = true ∧ q = g q0 := by
  intro l
  induction l with
  | nil => intro q h; exact absurd h (List.not_mem_nil q)
  | cons a as ih =>
    intro q h
    by_cases hfa : f a = true
    · rw [updateFirst, if_pos hfa] at h
      rcases List.mem_cons.mp h with h1 | h2
      · exact Or.inr ⟨a, List.mem_cons_self a as, hfa, h1⟩
      · exact Or.inl (List.mem_cons_of_mem a h2)
    · rw [updateFirst, if_neg hfa] at h
      rcases List.mem_cons.mp h with h1 | h2
      · exact Or.inl (h1 ▸ List.mem_cons_self a as)
      · rcases ih h2 with h3 | ⟨q0, hq0, hf, hq⟩
        · exact Or.inl (List.mem_cons_of_mem a h3)
        · exact Or.inr ⟨q0, List.mem_cons_of_mem a hq0, hf, hq⟩

theorem updateFirst_eq_map_pid (pid : String) (g : Proc → Proc) :
    ∀ l : List Proc, (pids l).Nodup →
      updateFirst (fun x => x.pid == pid) g l =
        l.map (fun q => if q.pid == pid then g q else q) := by
  intro l
  induction l with
  | nil => intro _; rfl
  | cons a as ih =>
    intro hnd
    have hnd2 : (pids as).Nodup := (List.nodup_cons.mp hnd).2
    have hna : a.pid ∉ pids as := (List.nodup_cons.mp hnd).1
    by_cases h : (a.pid == pid) = true
    · have heq : a.pid = pid := by simpa using h
      rw [updateFirst, if_pos h]
      simp only [List.map_cons, if_pos h]
      congr 1
      have hq0 : ∀ q ∈ as, (if q.pid == pid then g q else q) = q := by
        intro q hq
        have : (q.pid == pid) = false := by
          by_cases hqp : q.pid = pid
          · exfalso
            apply hna
            rw [heq, ← hqp]
            exact List.mem_map.mpr ⟨q, hq, rfl⟩
          · simpa using hqp
        rw [this]
        simp
      have hmap : List.map (fun q => if q.pid == pid then g q else q) as
          = List.map id as :=
        List.map_congr_left (by intro q hq; rw [hq0 q hq]; rfl)
      rw [hmap, List.map_id]
    · rw [updateFirst, if_neg h]
      simp only [List.map_cons, if_neg h]
      rw [ih hnd2]

theorem find?_updateFirst {f : Proc → Bool} {g : Proc → Proc}
    (hfg : ∀ a, f (g a) = f a) :
    ∀ l : List Proc, (updateFirst f g l).find? f = (l.find? f).map g := by
  intro l
  induction l with
  | nil => rfl
  | cons a as ih =>
    by_cases hfa : f a = true
    · rw [updateFirst, if_pos hfa]
      rw [@List.find?_cons_of_pos _ f (g a) as (by rw [hfg]; exact hfa),
        @List.find?_cons_of_pos _ f a as hfa]
      rfl
    · rw [updateFirst, if_neg hfa]
      rw [@List.find?_cons_of_neg _ f a (updateFirst f g as) (by simpa using hfa),
        @List.find?_cons_of_neg _ f a as (by simpa using hfa)]
      exact ih

theorem find?_map_proc {m : Proc → Proc} (hm : ∀ a, (m a).pid = a.pid)
    (pid : String) :
    ∀ l : List Proc, (l.map m).find? (fun x => x.pid == pid) =
      (l.find? (fun x => x.pid == pid)).map m := by
  intro l
  induction l with
  | nil => rfl
  | cons a as ih =>
    by_cases hfa : (a.pid == pid) = true
    · rw [List.map_cons,
        @List.find?_cons_of_pos _ (fun x => x.pid == pid) (m a) (as.map m)
          (by show ((m a).pid == pid) = true; rw [hm]; exact hfa),
        @List.find?_cons_of_pos _ (fun x => x.pid == pid) a as hfa]
      rfl
    · rw [List.map_cons,
        @List.find?_cons_of_neg _ (fun x => x.pid == pid) (m a) (as.map m)
          (by show ¬((m a).pid == pid) = true; rw [hm]; simpa using hfa),
        @List.find?_cons_of_neg _ (fun x => x.pid == pid) a as (by simpa using hfa)]
      exact ih

theorem makeProcessState_cons (a : Proc) (as : List Proc) :
    makeProcessState (a :: as) = toPState a :: makeProcessState as := rfl

theorem find?_makeProcessState (l : List Proc) (pid : String) :
    (makeProcessState l).find? (fun x => x.pid == pid) =
      (l.find? (fun x => x.pid == pid)).map toPState := by
  induction l with
  | nil => rfl
  | cons a as ih =>
    rw [makeProcessState_cons]
    by_cases hfa : (a.pid == pid) = true
    · rw [@List.find?_cons_of_pos PState (fun x => x.pid == pid) (toPState a)
          (makeProcessState as) (by simpa [toPState] using hfa),
        @List.find?_cons_of_pos Proc (fun x => x.pid == pid) a as hfa]
      rfl
    · rw [@List.find?_cons_of_neg PState (fun x => x.pid == pid) (toPState a)
          (makeProcessState as) (by simpa [toPState] using hfa),
        @List.find?_cons_of_neg Proc (fun x => x.pid == pid) a as (by simpa using hfa)]
      exact ih

theorem nodup_pids_of_eq {l l2 : List Proc} (h : pids l2 = pids l)
    (hn : (pids l).Nodup) : (pids l2).Nodup := h ▸ hn

theorem cntInv_enqueueArrivals {ρ : Type} (push : List Proc → ρ → ρ)
    (st : SimState ρ) (h : CntInv st) : CntInv (enqueueArrivals push st) := by
  intro q hq
  have hq2 : q ∈ st.procs.map
      (fun p => if admitFilter st.time p then { p with enqueued := true } else p) := hq
  rcases List.mem_map.mp hq2 with ⟨q0, hq0, rfl⟩
  by_cases hc : admitFilter st.time q0 = true
  · simpa [hc] using h q0 hq0
  · simpa [hc] using h q0 hq0

theorem cntInv_procs_update {ρ : Type} (st : SimState ρ) (l2 : List Proc)
    (h : CntInv st)
    (hmem : ∀ q ∈ l2, ∃ q0 ∈ st.procs,
      q.pid = q0.pid ∧ q.remaining = q0.remaining ∧ q.burst = q0.burst) :
    CntInv { st with procs := l2 } := by
  intro q hq
  rcases hmem q hq with ⟨q0, hq0, h1, h2, h3⟩
  show q.remaining = q.burst - (execCount q.pid st.trace : Int)
  rw [h1, h2, h3]
  exact h q0 hq0

theorem mem_fields_setStartTime (pid : String) (t : Int) (l : List Proc) :
    ∀ q ∈ setStartTime pid t l, ∃ q0 ∈ l,
      q.pid = q0.pid ∧ q.remaining = q0.remaining ∧ q.burst = q0.burst := by
  intro q hq
  rcases mem_updateFirst hq with h1 | ⟨q0, hq0, _, rfl⟩
  · exact ⟨q, h1, rfl, rfl, rfl⟩
  · refine ⟨q0, hq0, ?_, ?_, ?_⟩ <;>
      by_cases hs : q0.startTime = none <;> simp [hs]

theorem mem_fields_setCompletion (pid : String) (t : Int) (l : List Proc) :
    ∀ q ∈ setCompletion pid t l, ∃ q0 ∈ l,
      q.pid = q0.pid ∧ q.remaining = q0.remaining ∧ q.burst = q0.burst := by
  intro q hq
  rcases mem_updateFirst hq with h1 | ⟨q0, hq0, _, rfl⟩
  · exact ⟨q, h1, rfl, rfl, rfl⟩
  · exact ⟨q0, hq0, rfl, rfl, rfl⟩

theorem cntInv_execUnit {ρ : Type} (view : ρ → List String)
    (push : List Proc → ρ → ρ) (pid : String) (st : SimState ρ)
    (hnd : NodupP st) (h : CntInv st) : CntInv (execUnit view push pid st) := by
  apply cntInv_enqueueArrivals
  intro q hq
  have hq2 : q ∈ decrement pid st.procs := hq
  rw [decrement, updateFirst_eq_map_pid pid _ st.procs hnd] at hq2
  rcases List.mem_map.mp hq2 with ⟨q0, hq0, rfl⟩
  have hcnt := h q0 hq0
  by_cases hc : (q0.pid == pid) = true
  · have hpe : q0.pid = pid := by simpa using hc
    show (if (q0.pid == pid) = true then { q0 with remaining := q0.remaining - 1 } else q0).remaining
        = _ - (execCount (if (q0.pid == pid) = true then { q0 with remaining := q0.remaining - 1 } else q0).pid
            (st.trace ++ [TraceEvent.mk st.time (some pid) (view st.ready)
              ("exec(" ++ pid ++ ")")]) : Int)
    rw [if_pos hc]
    show q0.remaining - 1 = q0.burst - (execCount q0.pid (st.trace ++ [_]) : Int)
    rw [execCount_append_exec, if_pos hpe.symm]
    rw [hcnt]
    push_cast
    ring
  · show (if (q0.pid == pid) = true then { q0 with remaining := q0.remaining - 1 } else q0).remaining
        = _ - (execCount (if (q0.pid == pid) = true then { q0 with remaining := q0.remaining - 1 } else q0).pid
            (st.trace ++ [TraceEvent.mk st.time (some pid) (view st.ready)
              ("exec(" ++ pid ++ ")")]) : Int)
    rw [if_neg hc]
    show q0.remaining = q0.burst - (execCount q0.pid (st.trace ++ [_]) : Int)
    have hne : pid ≠ q0.pid := by
      intro hx
      exact hc (by simp [hx])
    rw [execCount_append_exec, if_neg hne]
    simpa using hcnt

theorem snapInv_idleUnit {ρ : Type} (idleReady : ρ → List String)
    (st : SimState ρ) (hlog : LogInv st) (h : SnapInv st) :
    SnapInv (idleUnit idleReady st) := by
  intro i hi pid hcpu
  have hlen : st.history.length = st.trace.length :=
    history_length_eq_trace_length st hlog
  have hi1 : i < (st.history ++
      [snapshotState st.time none st.procs (idleReady st.ready)]).length := hi
  have hcpu1 : ((st.history ++
      [snapshotState st.time none st.procs (idleReady st.ready)])[i]).cpu
      = some pid := hcpu
  by_cases hlt : i < st.history.length
  · rw [List.getElem_append_left hlt] at hcpu1
    obtain ⟨e, he1, he2⟩ := h i hlt pid hcpu1
    refine ⟨e, ?_, ?_⟩
    · show List.find? (fun x => x.pid == pid)
        (((st.history ++
          [snapshotState st.time none st.procs (idleReady st.ready)])[i]).procs) = some e
      rw [List.getElem_append_left hlt]
      exact he1
    · show e.remaining = e.burst - (execCount pid
        ((st.trace ++ [TraceEvent.mk st.time none (idleReady st.ready) "idle"]).take (i + 1)) : Int)
      rw [List.take_append_of_le_length (by omega : i + 1 ≤ st.trace.length)]
      exact he2
  · exfalso
    have hieq : i = st.history.length := by
      simp only [List.length_append, List.length_singleton] at hi1
      omega
    rw [List.getElem_concat_length _ _ _ hieq] at hcpu1
    simp [snapshotState] at hcpu1

theorem snapInv_execUnit {ρ : Type} (view : ρ → List String)
    (push : List Proc → ρ → ρ) (pid : String) (st : SimState ρ)
    (hlog : LogInv st) (hcnt : CntInv st) (hfind : HasPid pid st.procs)
    (h : SnapInv st) : SnapInv (execUnit view push pid st) := by
  intro i hi pid' hcpu
  have hlen : st.history.length = st.trace.length :=
    history_length_eq_trace_length st hlog
  have hi1 : i < (st.history ++ [snapshotState st.time (some pid)
      (decrement pid st.procs) (view st.ready)]).length := hi
  have hcpu1 : ((st.history ++ [snapshotState st.time (some pid)
      (decrement pid st.procs) (view st.ready)])[i]).cpu = some pid' := hcpu
  by_cases hlt : i < st.history.length
  · rw [List.getElem_append_left hlt] at hcpu1
    obtain ⟨e, he1, he2⟩ := h i hlt pid' hcpu1
    refine ⟨e, ?_, ?_⟩
    · show List.find? (fun x => x.pid == pid')
        (((st.history ++ [snapshotState st.time (some pid)
          (decrement pid st.procs) (view st.ready)])[i]).procs) = some e
      rw [List.getElem_append_left hlt]
      exact he1
    · show e.remaining = e.burst - (execCount pid'
        ((st.trace ++ [TraceEvent.mk st.time (some pid) (view st.ready)
          ("exec(" ++ pid ++ ")")]).take (i + 1)) : Int)
      rw [List.take_append_of_le_length (by omega : i + 1 ≤ st.trace.length)]
      exact he2
  · have hieq : i = st.history.length := by
      simp only [List.length_append, List.length_singleton] at hi1
      omega
    rw [List.getElem_concat_length _ _ _ hieq] at hcpu1
    have hpe : pid' = pid := by
      have hx : some pid = some pid' := hcpu1
      exact (Option.some.inj hx).symm
    subst hpe
    obtain ⟨p0, hp0⟩ := Option.isSome_iff_exists.mp hfind
    have hp0mem : p0 ∈ st.procs := List.mem_of_find?_eq_some hp0
    have hp0pid : p0.pid = pid' := by
      have := List.find?_some hp0
      simpa using this
    refine ⟨toPState { p0 with remaining := p0.remaining - 1 }, ?_, ?_⟩
    · show List.find? (fun x => x.pid == pid')
        (((st.history ++ [snapshotState st.time (some pid')
          (decrement pid' st.procs) (view st.ready)])[i]).procs) = _
      rw [List.getElem_concat_length _ _ _ hieq]
      show ((makeProcessState (decrement pid' st.procs)).find? (fun x => x.pid == pid'))
          = _
      rw [find?_makeProcessState, decrement,
        @find?_updateFirst (fun x => x.pid == pid')
          (fun p => { p with remaining := p.remaining - 1 }) (fun a => rfl)
          st.procs, hp0]
      rfl
    · show (toPState { p0 with remaining := p0.remaining - 1 }).remaining
        = (toPState { p0 with remaining := p0.remaining - 1 }).burst - (execCount pid'
          ((st.trace ++ [TraceEvent.mk st.time (some pid') (view st.ready)
            ("exec(" ++ pid' ++ ")")]).take (i + 1)) : Int)
      have htk : ((st.trace ++ [TraceEvent.mk st.time (some pid') (view st.ready)
          ("exec(" ++ pid' ++ ")")]).take (i + 1)) =
          st.trace ++ [TraceEvent.mk st.time (some pid') (view st.ready)
          ("exec(" ++ pid' ++ ")")] := by
        apply List.take_of_length_le
        simp only [List.length_append, List.length_singleton]
        omega
      rw [htk, execCount_append_exec, if_pos rfl]
      have hc0 := hcnt p0 hp0mem
      rw [hp0pid] at hc0
      show p0.remaining - 1 = p0.burst - ((execCount pid' st.trace + 1 : Nat) : Int)
      rw [hc0]
      push_cast
      ring

theorem hasPid_execUnit {ρ : Type} (view : ρ → List String)
    (push : List Proc → ρ → ρ) (pid : String) (st : SimState ρ)
    (h : HasPid pid st.procs) : HasPid pid (execUnit view push pid st).procs := by
  unfold HasPid at *
  show (((decrement pid st.procs).map
      (fun p => if admitFilter (st.time + 1) p then { p with enqueued := true } else p)).find?
      (fun x => x.pid == pid)).isSome = true
  rw [find?_map_proc (fun a => by by_cases hs : admitFilter (st.time + 1) a = true <;> simp [hs]) pid,
    decrement,
    @find?_updateFirst (fun x => x.pid == pid)
      (fun p => { p with remaining := p.remaining - 1 }) (fun a => rfl) st.procs]
  simpa using h

theorem hasPid_setStartTime (pid : String) (t : Int) (l : List Proc)
    (h : HasPid pid l) : HasPid pid (setStartTime pid t l) := by
  unfold HasPid at *
  rw [setStartTime,
    @find?_updateFirst (fun x => x.pid == pid)
      (fun p => if p.startTime = none then { p with startTime := some t } else p)
      (fun a => by by_cases hs : a.startTime = none <;> simp [hs]) l]
  simpa using h

theorem simInv_enqueueArrivals {ρ : Type} (push : List Proc → ρ → ρ)
    (st : SimState ρ) (h : SimInv st) : SimInv (enqueueArrivals push st) :=
  ⟨logInv_enqueueArrivals push st h.1,
   cntInv_enqueueArrivals push st h.2.1,
   h.2.2.1,
   nodup_pids_of_eq (pids_enqueueArrivals push st) h.2.2.2⟩

theorem simInv_execUnit {ρ : Type} (view : ρ → List String)
    (push : List Proc → ρ → ρ) (pid : String) (st : SimState ρ)
    (hfind : HasPid pid st.procs) (h : SimInv st) :
    SimInv (execUnit view push pid st) :=
  ⟨logInv_execUnit view push pid st h.1,
   cntInv_execUnit view push pid st h.2.2.2 h.2.1,
   snapInv_execUnit view push pid st h.1 h.2.1 hfind h.2.2.1,
   nodup_pids_of_eq (pids_execUnit view push pid st) h.2.2.2⟩

theorem simInv_execUnits {ρ : Type} (view : ρ → List String)
    (push : List Proc → ρ → ρ) (pid : String) :
    ∀ (n : Nat) (st : SimState ρ), HasPid pid st.procs → SimInv st →
      SimInv (execUnits view push pid n st) ∧
      HasPid pid (execUnits view push pid n st).procs := by
  intro n
  induction n with
  | zero => intro st hp h; exact ⟨h, hp⟩
  | succ n ih =>
    intro st hp h
    exact ih _ (hasPid_execUnit view push pid st hp)
      (simInv_execUnit view push pid st hp h)

theorem simInv_idleUnit {ρ : Type} (idleReady : ρ → List String)
    (st : SimState ρ) (h : SimInv st) : SimInv (idleUnit idleReady st) := by
  refine ⟨logInv_idleUnit idleReady st h.1, ?_, snapInv_idleUnit idleReady st h.1 h.2.2.1, h.2.2.2⟩
  intro q hq
  have hq2 : q ∈ st.procs := hq
  have := h.2.1 q hq2
  show q.remaining = q.burst -
    (execCount q.pid (st.trace ++ [TraceEvent.mk st.time none (idleReady st.ready) "idle"]) : Int)
  rw [execCount_append_none _ _ _ rfl]
  exact this

theorem simInv_idleUnits {ρ : Type} (idleReady : ρ → List String) :
    ∀ (n : Nat) (st : SimState ρ), SimInv st →
      SimInv (idleUnits idleReady n st) := by
  intro n
  induction n with
  | zero => intro st h; exact h
  | succ n ih =>
    intro st h
    exact ih _ (simInv_idleUnit idleReady st h)

theorem simInv_setStartTime {ρ : Type} (pid : String) (t : Int)
    (st : SimState ρ) (rd : ρ) (h : SimInv st) :
    SimInv { st with ready := rd, procs := setStartTime pid t st.procs } := by
  refine ⟨h.1, ?_, h.2.2.1,
    nodup_pids_of_eq (pids_setStartTime pid t st.procs) h.2.2.2⟩
  intro q hq
  rcases mem_fields_setStartTime pid t st.procs q hq with ⟨q0, hq0, e1, e2, e3⟩
  show q.remaining = q.burst - (execCount q.pid st.trace : Int)
  rw [e1, e2, e3]
  exact h.2.1 q0 hq0

theorem simInv_setCompletion {ρ : Type} (pid : String) (t : Int)
    (st : SimState ρ) (h : SimInv st) :
    SimInv { st with procs := setCompletion pid t st.procs } := by
  refine ⟨h.1, ?_, h.2.2.1,
    nodup_pids_of_eq (pids_setCompletion pid t st.procs) h.2.2.2⟩
  intro q hq
  rcases mem_fields_setCompletion pid t st.procs q hq with ⟨q0, hq0, e1, e2, e3⟩
  show q.remaining = q.burst - (execCount q.pid st.trace : Int)
  rw [e1, e2, e3]
  exact h.2.1 q0 hq0

theorem simInv_serveRR (quantum : Int) (st : SimState (List String))
    (h : SimInv st) : SimInv (serveRR quantum st) := by
  unfold serveRR
  split
  · exact h
  · rename_i pid rest hready
    split
    · exact h
    · rename_i p hp
      dsimp only
      have hhas : HasPid pid st.procs := by simp [HasPid, hp]
      have h1 : SimInv { st with ready := rest, procs := setStartTime pid st.time st.procs } :=
        simInv_setStartTime pid st.time st rest h
      have hhas1 : HasPid pid (setStartTime pid st.time st.procs) :=
        hasPid_setStartTime pid st.time st.procs hhas
      obtain ⟨h2, _⟩ := simInv_execUnits rrView rrPush pid
        (min quantum p.remaining).toNat _ hhas1 h1
      split
      · exact h2
      · split
        · exact simInv_setCompletion pid _ _ h2
        · exact h2

theorem simInv_serveFCFS (st : SimState (List String))
    (h : SimInv st) : SimInv (serveFCFS st) := by
  unfold serveFCFS
  split
  · exact h
  · rename_i pid rest hready
    split
    · exact h
    · rename_i p hp
      dsimp only
      have hhas : HasPid pid st.procs := by simp [HasPid, hp]
      have h1 : SimInv { st with ready := rest, procs := setStartTime pid st.time st.procs } :=
        simInv_setStartTime pid st.time st rest h
      have hhas1 : HasPid pid (setStartTime pid st.time st.procs) :=
        hasPid_setStartTime pid st.time st.procs hhas
      obtain ⟨h2, _⟩ := simInv_execUnits rrView rrPush pid
        p.remaining.toNat _ hhas1 h1
      exact simInv_setCompletion pid _ _ h2

theorem simInv_serveSJF (st : SimState (List String))
    (h : SimInv st) : SimInv (serveSJF st) := by
  unfold serveSJF
  dsimp only
  split
  · exact h
  · rename_i pid rest hready
    split
    · exact h
    · rename_i p hp
      have hhas : HasPid pid st.procs := by simp [HasPid, hp]
      have h1 : SimInv { st with ready := rest, procs := setStartTime pid st.time st.procs } :=
        simInv_setStartTime pid st.time st rest h
      have hhas1 : HasPid pid (setStartTime pid st.time st.procs) :=
        hasPid_setStartTime pid st.time st.procs hhas
      obtain ⟨h2, _⟩ := simInv_execUnits rrView rrPush pid
        p.remaining.toNat _ hhas1 h1
      exact simInv_setCompletion pid _ _ h2

theorem simInv_servePriority (st : SimState (List String))
    (h : SimInv st) : SimInv (servePriority st) := by
  unfold servePriority
  dsimp only
  split
  · exact h
  · rename_i pid rest hready
    split
    · exact h
    · rename_i p hp
      have hhas : HasPid pid st.procs := by simp [HasPid, hp]
      have h1 : SimInv { st with ready := rest, procs := setStartTime pid st.time st.procs } :=
        simInv_setStartTime pid st.time st rest h
      have hhas1 : HasPid pid (setStartTime pid st.time st.procs) :=
        hasPid_setStartTime pid st.time st.procs hhas
      obtain ⟨h2, _⟩ := simInv_execUnits rrView rrPush pid
        p.remaining.toNat _ hhas1 h1
      exact simInv_setCompletion pid _ _ h2

theorem simInv_serveMLQ (fgQuantum : Int) (bgQuantum : Option Int)
    (st : SimState MLQReady) (h : SimInv st) :
    SimInv (serveMLQ fgQuantum bgQuantum st) := by
  unfold serveMLQ
  split
  · rename_i pid rest hready
    split
    · exact h
    · rename_i p hp
      dsimp only
      have hhas : HasPid pid st.procs := by simp [HasPid, hp]
      have h1 : SimInv { st with
          ready := (rest, st.ready.2)
          procs := setStartTime pid st.time st.procs } :=
        simInv_setStartTime pid st.time st (rest, st.ready.2) h
      have hhas1 : HasPid pid (setStartTime pid st.time st.procs) :=
        hasPid_setStartTime pid st.time st.procs hhas
      obtain ⟨h2, _⟩ := simInv_execUnits mlqView mlqPush pid
        (min fgQuantum p.remaining).toNat _ hhas1 h1
      split
      · exact h2
      · split
        · exact simInv_setCompletion pid _ _ h2
        · exact h2
  · split
    · exact h
    · rename_i pid rest hready
      split
      · exact h
      · rename_i p hp
        dsimp only
        have hhas : HasPid pid st.procs := by simp [HasPid, hp]
        have h1 : SimInv { st with
            ready := (st.ready.1, rest)
            procs := setStartTime pid st.time st.procs } :=
          simInv_setStartTime pid st.time st (st.ready.1, rest) h
        have hhas1 : HasPid pid (setStartTime pid st.time st.procs) :=
          hasPid_setStartTime pid st.time st.procs hhas
        split
        · obtain ⟨h2, _⟩ := simInv_execUnits mlqView mlqPush pid
            p.remaining.toNat _ hhas1 h1
          exact simInv_setCompletion pid _ _ h2
        · obtain ⟨h2, _⟩ := simInv_execUnits mlqView mlqPush pid
            _ _ hhas1 h1
          split
          · exact h2
          · split
            · exact simInv_setCompletion pid _ _ h2
            · exact h2

theorem simInv_simLoop {ρ : Type} (isEmpty : ρ → Bool) (push : List Proc → ρ → ρ)
    (idleReady : ρ → List String) (serve : SimState ρ → SimState ρ)
    (hserve : ∀ st, SimInv st → SimInv (serve st)) :
    ∀ (fuel : Nat) (st : SimState ρ), SimInv st →
      SimInv (simLoop isEmpty push idleReady serve fuel st) := by
  intro fuel
  induction fuel with
  | zero => intro st h; exact h
  | succ fuel ih =>
    intro st h
    rw [simLoop]
    by_cases hc : loopCond isEmpty st = true
    · rw [if_pos hc]
      by_cases he : isEmpty (enqueueArrivals push st).ready = true
      · rw [if_pos he]
        cases hf : findNext (enqueueArrivals push st).procs with
        | none => exact simInv_enqueueArrivals push st h
        | some next =>
          exact ih _ (simInv_enqueueArrivals _ _
            (simInv_idleUnits _ _ _ (simInv_enqueueArrivals push st h)))
      · rw [if_neg he]
        exact ih _ (hserve _ (simInv_enqueueArrivals push st h))
    · rw [if_neg hc]
      exact h

theorem initProcs_remaining (nps : List NProc) :
    ∀ p ∈ initProcs nps, p.remaining = p.burst := by
  intro p hp
  rcases List.mem_map.mp hp with ⟨q, _, rfl⟩
  rfl

theorem sortByArrival_remaining (l : List Proc)
    (h : ∀ p ∈ l, p.remaining = p.burst) :
    ∀ p ∈ sortByArrival l, p.remaining = p.burst := by
  intro p hp
  exact h p ((List.perm_insertionSort _ l).subset hp)

theorem nodup_pids_sortByArrival (l : List Proc) (h : (pids l).Nodup) :
    (pids (sortByArrival l)).Nodup := by
  have hperm :=
    (List.perm_insertionSort (fun a b => a.arrival ≤ b.arrival) l).map
      (fun p => p.pid)
  unfold pids sortByArrival
  exact hperm.nodup_iff.mpr h

theorem simInv_initState {ρ : Type} (ready : ρ) (push : List Proc → ρ → ρ)
    (procs0 : List Proc) (hrb : ∀ p ∈ procs0, p.remaining = p.burst)
    (hnd : (pids procs0).Nodup) : SimInv (initState ready push procs0) := by
  apply simInv_enqueueArrivals
  refine ⟨⟨rfl, rfl, rfl⟩, ?_, ?_, hnd⟩
  · intro q hq
    show q.remaining = q.burst - (execCount q.pid [] : Int)
    simp [execCount, hrb q hq]
  · intro i hi pid hcpu
    exact absurd hi (by simp)

theorem nodup_pids_normalized (ps : List ProcIn)
    (hnd : (ps.map (fun p => p.pid)).Nodup) :
    (pids (initProcs (ps.map fun p =>
      NProc.mk p.pid p.arrival p.burst (p.priority.getD 0)))).Nodup := by
  rw [pids_initProcs]
  simpa [List.map_map, Function.comp] using hnd

/-- C10: for every run (every algorithm, distinct pids), every snapshot
whose CPU occupant is `pid` copies a process record for `pid` whose
`remaining` equals `burst` minus the number of execution units of `pid` in
the trace up to *and including* this snapshot's unit: the decrement of
`remaining` happens before the snapshot is emitted, so the snapshot at a
process's final execution unit shows `remaining = 0` while it occupies the
CPU. -/
theorem simulate_snapshot_shows_post_decrement_remaining (alg : String)
    (ps : List ProcIn) (opts : SimOptions)
    (hnd : (ps.map (fun p => p.pid)).Nodup) :
    ∀ (i : Nat) (hi : i < (simulate alg ps opts).historySnapshots.length)
      (pid : String),
      ((simulate alg ps opts).historySnapshots[i]).cpu = some pid →
      ∃ e, (((simulate alg ps opts).historySnapshots[i]).procs.find?
          (fun x => x.pid == pid)) = some e ∧
        e.remaining = e.burst -
          (execCount pid ((simulate alg ps opts).trace.take (i + 1)) : Int) := by
  have hsortcase : ∀ (serve : SimState (List String) → SimState (List String)),
      (∀ st, SimInv st → SimInv (serve st)) →
      ∀ (idleReady : List String → List String),
      SimInv (simLoop List.isEmpty rrPush idleReady serve maxIter
        (initState [] rrPush (sortByArrival (initProcs (ps.map fun p =>
          NProc.mk p.pid p.arrival p.burst (p.priority.getD 0)))))) := by
    intro serve hserve idleReady
    apply simInv_simLoop _ _ _ _ hserve
    apply simInv_initState
    · exact sortByArrival_remaining _ (initProcs_remaining _)
    · exact nodup_pids_sortByArrival _ (nodup_pids_normalized ps hnd)
  have hplaincase : ∀ (serve : SimState (List String) → SimState (List String)),
      (∀ st, SimInv st → SimInv (serve st)) →
      ∀ (idleReady : List String → List String),
      SimInv (simLoop List.isEmpty rrPush idleReady serve maxIter
        (initState [] rrPush (initProcs (ps.map fun p =>
          NProc.mk p.pid p.arrival p.burst (p.priority.getD 0))))) := by
    intro serve hserve idleReady
    apply simInv_simLoop _ _ _ _ hserve
    apply simInv_initState
    · exact initProcs_remaining _
    · exact nodup_pids_normalized ps hnd
  have hmlqcase : ∀ (fq : Int) (bq : Option Int),
      SimInv (simLoop mlqIsEmpty mlqPush (fun _ => []) (serveMLQ fq bq) maxIter
        (initState ([], []) mlqPush (sortByArrival (initProcs (ps.map fun p =>
          NProc.mk p.pid p.arrival p.burst (p.priority.getD 0)))))) := by
    intro fq bq
    apply simInv_simLoop _ _ _ _ (simInv_serveMLQ fq bq)
    apply simInv_initState
    · exact sortByArrival_remaining _ (initProcs_remaining _)
    · exact nodup_pids_sortByArrival _ (nodup_pids_normalized ps hnd)
  unfold simulate
  split
  · exact fun i hi pid hcpu =>
      (hsortcase _ (simInv_serveRR _) rrView).2.2.1 i hi pid hcpu
  · exact fun i hi pid hcpu =>
      (hsortcase _ simInv_serveFCFS rrView).2.2.1 i hi pid hcpu
  · exact fun i hi pid hcpu =>
      (hplaincase _ simInv_serveSJF (fun _ => [])).2.2.1 i hi pid hcpu
  · exact fun i hi pid hcpu =>
      (hplaincase _ simInv_servePriority (fun _ => [])).2.2.1 i hi pid hcpu
  · exact fun i hi pid hcpu =>
      (hmlqcase _ _).2.2.1 i hi pid hcpu
  · exact fun i hi pid hcpu =>
      (hsortcase _ (simInv_serveRR _) rrView).2.2.1 i hi pid hcpu

/-- Witness for C10 at a concrete run: `RR` over the single process
`P1 (arrival 0, burst 2)`; the snapshot at index 1 is P1's final execution
unit and records `remaining = 2 - 2 = 0` while P1 occupies the CPU. -/
theorem simulate_snapshot_shows_post_decrement_remaining_witness :
    ∃ e, ((((simulate "RR" [⟨"P1", 0, 2, none⟩] {}).historySnapshots).get
        ⟨1, by decide⟩).procs.find? (fun x => x.pid == "P1")) = some e ∧
      e.remaining = e.burst -
        (execCount "P1" ((simulate "RR" [⟨"P1", 0, 2, none⟩] {}).trace.take 2) : Int) :=
  simulate_snapshot_shows_post_decrement_remaining "RR" [⟨"P1", 0, 2, none⟩] {}
    (by decide) 1 (by decide) "P1" (by decide)

/-! ## Claim C6 — the Round Robin slice

One RR scheduling turn runs the selected process for exactly
`min(quantum, remaining)` consecutive units; if work remains, the process is
re-enqueued at the tail, behind every process admitted during its slice
(admission runs after each unit, including the final one at the preemption
instant, and the tail push happens last). -/

theorem execUnits_time {ρ : Type} (view : ρ → List String)
    (push : List Proc → ρ → ρ) (pid : String) :
    ∀ (n : Nat) (st : SimState ρ),
      (execUnits view push pid n st).time = st.time + (n : Int) := by
  intro n
  induction n with
  | zero => intro st; simp [execUnits]
  | succ n ih =>
    intro st
    rw [execUnits, ih]
    show (st.time + 1) + (n : Int) = st.time + ((n + 1 : Nat) : Int)
    push_cast
    ring

theorem find?_execUnit_enqueued {ρ : Type} (view : ρ → List String)
    (push : List Proc → ρ → ρ) (pid : String) (st : SimState ρ) (p : Proc)
    (hf : st.procs.find? (fun x => x.pid == pid) = some p)
    (he : p.enqueued = true) :
    (execUnit view push pid st).procs.find? (fun x => x.pid == pid) =
      some { p with remaining := p.remaining - 1 } := by
  show (((decrement pid st.procs).map
      (fun q => if admitFilter (st.time + 1) q then { q with enqueued := true } else q)).find?
      (fun x => x.pid == pid)) = _
  rw [find?_map_proc (fun a => by by_cases hs : admitFilter (st.time + 1) a = true <;> simp [hs]) pid,
    decrement,
    @find?_updateFirst (fun x => x.pid == pid)
      (fun q => { q with remaining := q.remaining - 1 }) (fun a => rfl) st.procs,
    hf]
  simp [admitFilter, he]

theorem execUnits_remaining {ρ : Type} (view : ρ → List String)
    (push : List Proc → ρ → ρ) (pid : String) :
    ∀ (n : Nat) (st : SimState ρ) (p : Proc),
      st.procs.find? (fun x => x.pid == pid) = some p → p.enqueued = true →
      ∃ p2, (execUnits view push pid n st).procs.find? (fun x => x.pid == pid) = some p2 ∧
        p2.remaining = p.remaining - (n : Int) ∧ p2.enqueued = true := by
  intro n
  induction n with
  | zero =>
    intro st p hf he
    exact ⟨p, hf, by simp, he⟩
  | succ n ih =>
    intro st p hf he
    obtain ⟨p2, h1, h2, h3⟩ := ih (execUnit view push pid st)
      { p with remaining := p.remaining - 1 }
      (find?_execUnit_enqueued view push pid st p hf he) he
    refine ⟨p2, h1, ?_, h3⟩
    rw [h2]
    show p.remaining - 1 - (n : Int) = p.remaining - ((n + 1 : Nat) : Int)
    push_cast
    ring

theorem execUnits_trace_ext {ρ : Type} (view : ρ → List String)
    (push : List Proc → ρ → ρ) (pid : String) :
    ∀ (n : Nat) (st : SimState ρ),
      ∃ ext, (execUnits view push pid n st).trace = st.trace ++ ext ∧
        ext.map (fun e => (e.time, e.cpu)) =
          (List.range n).map (fun k : Nat => (st.time + (k : Int), some pid)) := by
  intro n
  induction n with
  | zero =>
    intro st
    exact ⟨[], by simp [execUnits], by simp⟩
  | succ n ih =>
    intro st
    obtain ⟨ext, h1, h2⟩ := ih (execUnit view push pid st)
    refine ⟨TraceEvent.mk st.time (some pid) (view st.ready)
      ("exec(" ++ pid ++ ")") :: ext, ?_, ?_⟩
    · rw [execUnits, h1]
      show (st.trace ++ [TraceEvent.mk st.time (some pid) (view st.ready)
        ("exec(" ++ pid ++ ")")]) ++ ext = _
      simp
    · rw [List.map_cons, h2]
      show (st.time, some pid) :: (List.range n).map
          (fun k : Nat => ((st.time + 1) + (k : Int), some pid)) =
        (List.range (n + 1)).map (fun k : Nat => (st.time + (k : Int), some pid))
      rw [List.range_succ_eq_map, List.map_cons, List.map_map]
      refine congrArg₂ _ (by simp) ?_
      apply List.map_congr_left
      intro k _
      show (st.time + 1 + (k : Int), some pid)
          = (st.time + ((k + 1 : Nat) : Int), some pid)
      push_cast
      refine congrArg₂ _ ?_ rfl
      ring

theorem mem_updateFirst_of_ne (pid : String) (g : Proc → Proc) :
    ∀ (l : List Proc) (q p : Proc), q ∈ l →
      l.find? (fun x => x.pid == pid) = some p → q ≠ p →
      q ∈ updateFirst (fun x => x.pid == pid) g l := by
  intro l
  induction l with
  | nil => intro q p hq; exact absurd hq (List.not_mem_nil q)
  | cons a as ih =>
    intro q p hq hf hne
    by_cases ha : (a.pid == pid) = true
    · rw [@List.find?_cons_of_pos _ (fun x => x.pid == pid) a as ha] at hf
      have hap : a = p := Option.some.inj hf
      rw [updateFirst, if_pos ha]
      rcases List.mem_cons.mp hq with h1 | h2
      · exact absurd (h1.trans hap) hne
      · exact List.mem_cons_of_mem _ h2
    · rw [@List.find?_cons_of_neg _ (fun x => x.pid == pid) a as (by simpa using ha)] at hf
      rw [updateFirst, if_neg ha]
      rcases List.mem_cons.mp hq with h1 | h2
      · exact h1 ▸ List.mem_cons_self a _
      · exact List.mem_cons_of_mem _ (ih q p h2 hf hne)

theorem execUnits_ready_mono_rr (pid : String) :
    ∀ (n : Nat) (st : SimState (List String)) (x : String), x ∈ st.ready →
      x ∈ (execUnits rrView rrPush pid n st).ready := by
  intro n
  induction n with
  | zero => intro st x hx; exact hx
  | succ n ih =>
    intro st x hx
    apply ih
    show x ∈ rrPush _ st.ready
    exact List.mem_append_left _ hx

theorem execUnits_admits_rr (pid : String) :
    ∀ (n : Nat) (st : SimState (List String)) (p : Proc),
      st.procs.find? (fun x => x.pid == pid) = some p → p.enqueued = true →
      ∀ q ∈ st.procs, q.enqueued = false → 0 < q.remaining →
        q.arrival ≤ st.time + (n : Int) → 1 ≤ n →
        q.pid ∈ (execUnits rrView rrPush pid n st).ready := by
  intro n
  induction n with
  | zero =>
    intro st p _ _ q _ _ _ _ hn
    exact absurd hn (by omega)
  | succ n ih =>
    intro st p hf he q hq hqe hqr hqa _
    have hqnp : q ≠ p := fun hx => by
      rw [hx] at hqe
      rw [hqe] at he
      exact Bool.false_ne_true he
    have hqdec : q ∈ decrement pid st.procs :=
      mem_updateFirst_of_ne pid _ st.procs q p hq hf hqnp
    by_cases hadm : admitFilter (st.time + 1) q = true
    · apply execUnits_ready_mono_rr pid n (execUnit rrView rrPush pid st)
      show q.pid ∈ rrPush ((decrement pid st.procs).filter
        (admitFilter (st.time + 1))) st.ready
      apply List.mem_append_right
      exact List.mem_map.mpr ⟨q, List.mem_filter.mpr ⟨hqdec, hadm⟩, rfl⟩
    · have hqmem2 : q ∈ (execUnit rrView rrPush pid st).procs := by
        refine List.mem_map.mpr ⟨q, hqdec, ?_⟩
        rw [if_neg hadm]
      have harr : ¬ (q.arrival ≤ st.time + 1) := by
        intro hx
        apply hadm
        simp [admitFilter, hqe, hx, hqr]
      have hn1 : 1 ≤ n := by
        by_contra hx
        have hn0 : n = 0 := by omega
        rw [hn0] at hqa
        simp at hqa
        exact harr hqa
      have := ih (execUnit rrView rrPush pid st)
        { p with remaining := p.remaining - 1 }
        (find?_execUnit_enqueued rrView rrPush pid st p hf he) he
        q hqmem2 hqe hqr
        (by
          show q.arrival ≤ st.time + 1 + (n : Int)
          have : ((n + 1 : Nat) : Int) = (n : Int) + 1 := by push_cast; ring
          rw [this] at hqa
          omega) hn1
      exact this

/-- C6: one Round Robin scheduling turn over the queue head `pid` with
positive remaining work executes exactly `min(quantum, remaining)`
consecutive units (one trace event per unit, CPU = `pid`, consecutive
times), leaves `pid`'s remaining work decreased by exactly that amount, and
— when remaining work is still positive — re-enqueues `pid` at the tail of
the single ready queue, behind every process that arrived during its slice,
arrivals at the preemption instant included. -/
theorem rr_slice_spec (quantum : Int) (st : SimState (List String))
    (pid : String) (rest : List String) (p : Proc)
    (hready : st.ready = pid :: rest)
    (hfind : st.procs.find? (fun x => x.pid == pid) = some p)
    (henq : p.enqueued = true)
    (hrem : 0 < p.remaining)
    (hq : 1 ≤ quantum) :
    ∃ ext, (serveRR quantum st).trace = st.trace ++ ext ∧
      ext.map (fun e => (e.time, e.cpu)) =
        (List.range (min quantum p.remaining).toNat).map
          (fun k : Nat => (st.time + (k : Int), some pid)) ∧
      (∃ p2, (serveRR quantum st).procs.find? (fun x => x.pid == pid) = some p2 ∧
        p2.remaining = p.remaining - min quantum p.remaining) ∧
      (min quantum p.remaining < p.remaining →
        ∃ A, (serveRR quantum st).ready = A ++ [pid] ∧
          ∀ q ∈ st.procs, q.enqueued = false → 0 < q.remaining →
            q.arrival ≤ st.time + min quantum p.remaining → q.pid ∈ A) := by
  obtain ⟨t, procs, rd, hist, tr⟩ := st
  simp only at hready hfind henq hrem
  subst hready
  have hrun1 : (1 : Int) ≤ min quantum p.remaining := le_min hq hrem
  have hruncast : ((min quantum p.remaining).toNat : Int) = min quantum p.remaining :=
    Int.toNat_of_nonneg (by omega)
  have hstart : (setStartTime pid t procs).find? (fun x => x.pid == pid) =
      some (if p.startTime = none then { p with startTime := some t } else p) := by
    rw [setStartTime,
      @find?_updateFirst (fun x => x.pid == pid)
        (fun q => if q.startTime = none then { q with startTime := some t } else q)
        (fun a => by by_cases hs : a.startTime = none <;> simp [hs]) procs,
      hfind]
    rfl
  set p1 : Proc := if p.startTime = none then { p with startTime := some t } else p with hp1
  have hp1rem : p1.remaining = p.remaining := by
    rw [hp1]; by_cases hs : p.startTime = none <;> simp [hs]
  have hp1enq : p1.enqueued = true := by
    rw [hp1]; by_cases hs : p.startTime = none <;> simp [hs, henq]
  have hserve : serveRR quantum ⟨t, procs, pid :: rest, hist, tr⟩ =
      (let st1 : SimState (List String) :=
        ⟨t, setStartTime pid t procs, rest, hist, tr⟩
      let st2 := execUnits rrView rrPush pid (min quantum p.remaining).toNat st1
      match st2.procs.find? (fun x => x.pid == pid) with
      | none => st2
      | some p2 =>
        if p2.remaining = 0 then { st2 with procs := setCompletion pid st2.time st2.procs }
        else { st2 with ready := st2.ready ++ [pid] }) := by
    show serveRR quantum ⟨t, procs, pid :: rest, hist, tr⟩ = _
    unfold serveRR
    dsimp only
    rw [hfind]
  set st1 : SimState (List String) := ⟨t, setStartTime pid t procs, rest, hist, tr⟩ with hst1
  set st2 := execUnits rrView rrPush pid (min quantum p.remaining).toNat st1 with hst2
  have hfind1 : st1.procs.find? (fun x => x.pid == pid) = some p1 := hstart
  obtain ⟨p2, hp2find, hp2rem, hp2enq⟩ :=
    execUnits_remaining rrView rrPush pid (min quantum p.remaining).toNat st1 p1 hfind1 hp1enq
  obtain ⟨ext, hext1, hext2⟩ :=
    execUnits_trace_ext rrView rrPush pid (min quantum p.remaining).toNat st1
  have hp2remv : p2.remaining = p.remaining - min quantum p.remaining := by
    rw [hp2rem, hp1rem, hruncast]
  refine ⟨ext, ?_, ?_, ?_, ?_⟩
  · rw [hserve]
    dsimp only
    rw [hp2find]
    dsimp only
    by_cases hz : p2.remaining = 0
    · rw [if_pos hz]
      exact hext1
    · rw [if_neg hz]
      exact hext1
  · exact hext2
  · rw [hserve]
    dsimp only
    rw [hp2find]
    dsimp only
    by_cases hz : p2.remaining = 0
    · rw [if_pos hz]
      refine ⟨{ p2 with completionTime := some st2.time }, ?_, by simpa using hp2remv⟩
      show (setCompletion pid st2.time st2.procs).find? (fun x => x.pid == pid) = _
      rw [setCompletion,
        @find?_updateFirst (fun x => x.pid == pid)
          (fun q => { q with completionTime := some st2.time }) (fun a => rfl)
          st2.procs,
        hp2find]
      rfl
    · rw [if_neg hz]
      exact ⟨p2, hp2find, hp2remv⟩
  · intro hlt
    have hz : ¬ (p2.remaining = 0) := by
      rw [hp2remv]
      omega
    rw [hserve]
    dsimp only
    rw [hp2find]
    dsimp only
    rw [if_neg hz]
    refine ⟨st2.ready, rfl, ?_⟩
    intro q hqmem hqe hqr hqa
    have hq1 : q ∈ st1.procs := by
      have hqnp1 : q ≠ p1 := fun hx => by
        rw [hx] at hqe
        rw [hqe] at hp1enq
        exact Bool.false_ne_true hp1enq
      by_cases hqp : q = p
      · exact absurd (hqp.trans (by
          rw [hp1]
          by_cases hs : p.startTime = none
          · rw [if_pos hs]
            exfalso
            apply Bool.false_ne_true
            rw [← hqe]
            rw [hqp]
            exact henq
          · rw [if_neg hs])) hqnp1
      · exact mem_updateFirst_of_ne pid _ procs q p hqmem hfind hqp
    have hn1 : 1 ≤ (min quantum p.remaining).toNat := by omega
    have := execUnits_admits_rr pid (min quantum p.remaining).toNat st1 p1
      hfind1 hp1enq q hq1 hqe hqr
      (by
        show q.arrival ≤ t + ((min quantum p.remaining).toNat : Int)
        rw [hruncast]
        exact hqa) hn1
    exact this

/-- Witness for C6: quantum 2, ready queue `[P1]`, `P1` has remaining 3 and
`P2 (arrival 1)` is not yet admitted; the slice runs units at times 0 and 1,
`P1` keeps remaining 1 and is re-enqueued behind `P2`. -/
theorem rr_slice_spec_witness :
    ∃ ext, (serveRR 2 ⟨0,
        [⟨"P1", 0, 5, 0, 3, some 0, none, true, 0, 0⟩,
         ⟨"P2", 1, 2, 0, 2, none, none, false, 0, 0⟩], ["P1"], [], []⟩).trace
        = [] ++ ext ∧
      ext.map (fun e => (e.time, e.cpu)) =
        (List.range (min 2 (3 : Int)).toNat).map
          (fun k : Nat => ((0 : Int) + (k : Int), some "P1")) ∧
      (∃ p2, (serveRR 2 ⟨0,
          [⟨"P1", 0, 5, 0, 3, some 0, none, true, 0, 0⟩,
           ⟨"P2", 1, 2, 0, 2, none, none, false, 0, 0⟩], ["P1"], [], []⟩).procs.find?
            (fun x => x.pid == "P1") = some p2 ∧
        p2.remaining = 3 - min 2 (3 : Int)) ∧
      (min 2 (3 : Int) < 3 →
        ∃ A, (serveRR 2 ⟨0,
            [⟨"P1", 0, 5, 0, 3, some 0, none, true, 0, 0⟩,
             ⟨"P2", 1, 2, 0, 2, none, none, false, 0, 0⟩], ["P1"], [], []⟩).ready
          = A ++ ["P1"] ∧
          ∀ q ∈ [(⟨"P1", 0, 5, 0, 3, some 0, none, true, 0, 0⟩ : Proc),
                 ⟨"P2", 1, 2, 0, 2, none, none, false, 0, 0⟩],
            q.enqueued = false → 0 < q.remaining →
            q.arrival ≤ (0 : Int) + min 2 (3 : Int) → q.pid ∈ A) :=
  rr_slice_spec 2
    ⟨0, [⟨"P1", 0, 5, 0, 3, some 0, none, true, 0, 0⟩,
         ⟨"P2", 1, 2, 0, 2, none, none, false, 0, 0⟩], ["P1"], [], []⟩
    "P1" [] ⟨"P1", 0, 5, 0, 3, some 0, none, true, 0, 0⟩
    rfl (by decide) rfl (by decide) (by decide)

/-! ## Claim C7 — MLQ never selects background over waiting foreground

At every selection point (the post-admission state of each loop iteration
that serves the CPU), the background branch is taken only when the
foreground queue is empty, and every admitted incomplete priority-0 process
is in the foreground queue at that instant. -/

theorem mlqInvX_of_mlqInv (xpid : String) (st : SimState MLQReady)
    (h : MLQInv st) : MLQInvX xpid st :=
  ⟨fun p hp _ => h.1 p hp, h.2.1, h.2.2⟩

theorem eq_of_find?_nodup (pid : String) (l : List Proc) (pf p2 : Proc)
    (hnd : (pids l).Nodup) (hf : l.find? (fun x => x.pid == pid) = some pf)
    (hmem : p2 ∈ l) (hpid : p2.pid = pid) : p2 = pf := by
  have hpfmem : pf ∈ l := List.mem_of_find?_eq_some hf
  have hpfpid : pf.pid = pid := by simpa using List.find?_some hf
  exact List.inj_on_of_nodup_map hnd hmem hpfmem (by rw [hpid, hpfpid])

theorem mem_decrement_fields (pid : String) (l : List Proc) :
    ∀ q ∈ decrement pid l, ∃ q0 ∈ l, q.pid = q0.pid ∧ q.priority = q0.priority ∧
      q.enqueued = q0.enqueued ∧ q.remaining ≤ q0.remaining := by
  intro q hq
  rcases mem_updateFirst hq with h1 | ⟨q0, hq0, _, rfl⟩
  · exact ⟨q, h1, rfl, rfl, rfl, le_refl _⟩
  · exact ⟨q0, hq0, rfl, rfl, rfl, by simp⟩

theorem mem_setStartTime_fields (pid : String) (t : Int) (l : List Proc) :
    ∀ q ∈ setStartTime pid t l, ∃ q0 ∈ l, q.pid = q0.pid ∧ q.priority = q0.priority ∧
      q.enqueued = q0.enqueued ∧ q.remaining ≤ q0.remaining := by
  intro q hq
  rcases mem_updateFirst hq with h1 | ⟨q0, hq0, _, rfl⟩
  · exact ⟨q, h1, rfl, rfl, rfl, le_refl _⟩
  · refine ⟨q0, hq0, ?_, ?_, ?_, ?_⟩ <;>
      by_cases hs : q0.startTime = none <;> simp [hs]

theorem mem_setCompletion_fields (pid : String) (t : Int) (l : List Proc) :
    ∀ q ∈ setCompletion pid t l, ∃ q0 ∈ l, q.pid = q0.pid ∧ q.priority = q0.priority ∧
      q.enqueued = q0.enqueued ∧ q.remaining ≤ q0.remaining := by
  intro q hq
  rcases mem_updateFirst hq with h1 | ⟨q0, hq0, _, rfl⟩
  · exact ⟨q, h1, rfl, rfl, rfl, le_refl _⟩
  · exact ⟨q0, hq0, rfl, rfl, rfl, le_refl _⟩

/-- Transfer of `MLQInvX` across a procs-only update that preserves pid,
priority and enqueued and does not increase remaining, leaving the ready
pair unchanged. -/
theorem mlqInvX_transfer (xpid : String) (st st2 : SimState MLQReady)
    (hready : st2.ready = st.ready)
    (hmem : ∀ q ∈ st2.procs, ∃ q0 ∈ st.procs, q.pid = q0.pid ∧
      q.priority = q0.priority ∧ q.enqueued = q0.enqueued ∧
      q.remaining ≤ q0.remaining)
    (hpids : pids st2.procs = pids st.procs)
    (h : MLQInvX xpid st) : MLQInvX xpid st2 := by
  refine ⟨?_, ?_, nodup_pids_of_eq hpids h.2.2⟩
  · intro p hp hne hprio henq hrem
    rcases hmem p hp with ⟨q0, hq0, e1, e2, e3, e4⟩
    rw [hready, e1]
    exact h.1 q0 hq0 (e1 ▸ hne) (e2 ▸ hprio) (e3 ▸ henq) (by omega)
  · intro pd hpd p hp hpid
    rcases hmem p hp with ⟨q0, hq0, e1, e2, _, _⟩
    rw [e2]
    exact h.2.1 pd (hready ▸ hpd) q0 hq0 (e1 ▸ hpid)

theorem prioOfPid_transfer (xpid : String) (l l2 : List Proc)
    (hmem : ∀ q ∈ l2, ∃ q0 ∈ l, q.pid = q0.pid ∧ q.priority = q0.priority ∧
      q.enqueued = q0.enqueued ∧ q.remaining ≤ q0.remaining)
    (h : PrioOfPid xpid l) : PrioOfPid xpid l2 := by
  intro p hp hpid
  rcases hmem p hp with ⟨q0, hq0, e1, e2, _, _⟩
  rw [e2]
  exact h q0 hq0 (e1 ▸ hpid)

theorem mem_enqueue_map_fields (time : Int) (l : List Proc) :
    ∀ q ∈ l.map (fun p => if admitFilter time p then { p with enqueued := true } else p),
      ∃ q0 ∈ l, q.pid = q0.pid ∧ q.priority = q0.priority ∧
        q.remaining = q0.remaining := by
  intro q hq
  rcases List.mem_map.mp hq with ⟨q0, hq0, rfl⟩
  by_cases hc : admitFilter time q0 = true <;>
    exact ⟨q0, hq0, by simp [hc], by simp [hc], by simp [hc]⟩

theorem prioOfPid_enqueueArrivals (xpid : String) (st : SimState MLQReady)
    (h : PrioOfPid xpid st.procs) :
    PrioOfPid xpid (enqueueArrivals mlqPush st).procs := by
  intro p hp hpid
  rcases mem_enqueue_map_fields st.time st.procs p hp with ⟨q0, hq0, e1, e2, _⟩
  rw [e2]
  exact h q0 hq0 (e1 ▸ hpid)

theorem mlqInvX_enqueueArrivals (xpid : String) (st : SimState MLQReady)
    (h : MLQInvX xpid st) : MLQInvX xpid (enqueueArrivals mlqPush st) := by
  refine ⟨?_, ?_, nodup_pids_of_eq (pids_enqueueArrivals mlqPush st) h.2.2⟩
  · intro p hp hne hprio henq hrem
    have hp2 : p ∈ st.procs.map
        (fun q => if admitFilter st.time q then { q with enqueued := true } else q) := hp
    rcases List.mem_map.mp hp2 with ⟨q0, hq0, rfl⟩
    show _ ∈ (mlqPush (st.procs.filter (admitFilter st.time)) st.ready).1
    by_cases hadm : admitFilter st.time q0 = true
    · apply List.mem_append_right
      have hprio0 : (q0.priority == 0) = true := by
        have : q0.priority = 0 := by simpa [hadm] using hprio
        simp [this]
      have hpideq : (if admitFilter st.time q0 then { q0 with enqueued := true } else q0).pid
          = q0.pid := by simp [hadm]
      rw [hpideq]
      exact List.mem_map.mpr ⟨q0,
        List.mem_filter.mpr ⟨List.mem_filter.mpr ⟨hq0, hadm⟩, hprio0⟩, rfl⟩
    · apply List.mem_append_left
      have heq : (if admitFilter st.time q0 then { q0 with enqueued := true } else q0)
          = q0 := by simp [hadm]
      rw [heq] at hne hprio henq hrem ⊢
      exact h.1 q0 hq0 hne hprio henq hrem
  · intro pd hpd p hp hpid
    have hp2 : p ∈ st.procs.map
        (fun q => if admitFilter st.time q then { q with enqueued := true } else q) := hp
    rcases List.mem_map.mp hp2 with ⟨q0, hq0, rfl⟩
    have hfields : (if admitFilter st.time q0 then { q0 with enqueued := true } else q0).pid
        = q0.pid ∧ (if admitFilter st.time q0 then { q0 with enqueued := true } else q0).priority
        = q0.priority := by
      by_cases hc : admitFilter st.time q0 = true <;> simp [hc]
    rw [hfields.2]
    have hpd2 : pd ∈ (mlqPush (st.procs.filter (admitFilter st.time)) st.ready).2 := hpd
    rcases List.mem_append.mp hpd2 with hold | hnew
    · exact h.2.1 pd hold q0 hq0 (hfields.1 ▸ hpid)
    · rcases List.mem_map.mp hnew with ⟨q1, hq1, rfl⟩
      have hq1f := List.mem_filter.mp hq1
      have hq1mem : q1 ∈ st.procs := (List.mem_filter.mp hq1f.1).1
      have hq1prio : q1.priority ≠ 0 := by
        have := hq1f.2
        simpa using this
      have : q0 = q1 := by
        apply List.inj_on_of_nodup_map h.2.2 hq0 hq1mem
        rw [← hfields.1, hpid]
      rw [this]
      exact hq1prio

theorem mlqInvX_execUnit (xpid : String) (st : SimState MLQReady)
    (h : MLQInvX xpid st) : MLQInvX xpid (execUnit mlqView mlqPush xpid st) := by
  apply mlqInvX_enqueueArrivals
  exact mlqInvX_transfer xpid st _ rfl
    (mem_decrement_fields xpid st.procs)
    (pids_decrement xpid st.procs) h

theorem prioOfPid_execUnit (xpid : String) (st : SimState MLQReady)
    (h : PrioOfPid xpid st.procs) :
    PrioOfPid xpid (execUnit mlqView mlqPush xpid st).procs := by
  intro p hp hpid
  have hp2 : p ∈ (decrement xpid st.procs).map
      (fun q => if admitFilter (st.time + 1) q then { q with enqueued := true } else q) := hp
  rcases mem_enqueue_map_fields (st.time + 1) (decrement xpid st.procs) p hp2 with
    ⟨q1, hq1, e1, e2, _⟩
  rcases mem_decrement_fields xpid st.procs q1 hq1 with ⟨q0, hq0, f1, f2, _, _⟩
  rw [e2, f2]
  exact h q0 hq0 (by rw [← f1, ← e1]; exact hpid)

theorem mlqInvX_execUnits (xpid : String) :
    ∀ (n : Nat) (st : SimState MLQReady), MLQInvX xpid st → PrioOfPid xpid st.procs →
      MLQInvX xpid (execUnits mlqView mlqPush xpid n st) ∧
      PrioOfPid xpid (execUnits mlqView mlqPush xpid n st).procs := by
  intro n
  induction n with
  | zero => intro st h hp; exact ⟨h, hp⟩
  | succ n ih =>
    intro st h hp
    exact ih _ (mlqInvX_execUnit xpid st h) (prioOfPid_execUnit xpid st hp)

theorem mlqInvX_execUnits_noprio (xpid : String) :
    ∀ (n : Nat) (st : SimState MLQReady), MLQInvX xpid st →
      MLQInvX xpid (execUnits mlqView mlqPush xpid n st) := by
  intro n
  induction n with
  | zero => intro st h; exact h
  | succ n ih =>
    intro st h
    exact ih _ (mlqInvX_execUnit xpid st h)

theorem mlqInv_enqueueArrivals (st : SimState MLQReady)
    (h : MLQInv st) : MLQInv (enqueueArrivals mlqPush st) := by
  have hx := mlqInvX_enqueueArrivals "" st (mlqInvX_of_mlqInv "" st h)
  refine ⟨?_, hx.2.1, hx.2.2⟩
  intro p hp hprio henq hrem
  have hp2 : p ∈ st.procs.map
      (fun q => if admitFilter st.time q then { q with enqueued := true } else q) := hp
  rcases List.mem_map.mp hp2 with ⟨q0, hq0, rfl⟩
  show _ ∈ (mlqPush (st.procs.filter (admitFilter st.time)) st.ready).1
  by_cases hadm : admitFilter st.time q0 = true
  · apply List.mem_append_right
    have hprio0 : (q0.priority == 0) = true := by
      have : q0.priority = 0 := by simpa [hadm] using hprio
      simp [this]
    have hpideq : (if admitFilter st.time q0 then { q0 with enqueued := true } else q0).pid
        = q0.pid := by simp [hadm]
    rw [hpideq]
    exact List.mem_map.mpr ⟨q0,
      List.mem_filter.mpr ⟨List.mem_filter.mpr ⟨hq0, hadm⟩, hprio0⟩, rfl⟩
  · apply List.mem_append_left
    have heq : (if admitFilter st.time q0 then { q0 with enqueued := true } else q0)
        = q0 := by simp [hadm]
    rw [heq] at hprio henq hrem ⊢
    exact h.1 q0 hq0 hprio henq hrem

theorem mlqInv_idleUnits :
    ∀ (n : Nat) (st : SimState MLQReady), MLQInv st →
      MLQInv (idleUnits (fun _ => []) n st) := by
  intro n
  induction n with
  | zero => intro st h; exact h
  | succ n ih => intro st h; exact ih _ h

theorem hasPid_execUnits {ρ : Type} (view : ρ → List String)
    (push : List Proc → ρ → ρ) (pid : String) :
    ∀ (n : Nat) (st : SimState ρ), HasPid pid st.procs →
      HasPid pid (execUnits view push pid n st).procs := by
  intro n
  induction n with
  | zero => intro st h; exact h
  | succ n ih => intro st h; exact ih _ (hasPid_execUnit view push pid st h)

theorem mlqInv_serveMLQ (fgQuantum : Int) (bgQuantum : Option Int)
    (st : SimState MLQReady) (h : MLQInv st) :
    MLQInv (serveMLQ fgQuantum bgQuantum st) := by
  unfold serveMLQ
  split
  · rename_i pid rest hready
    split
    · rename_i hnone
      have hnopid : ∀ p ∈ st.procs, p.pid ≠ pid := by
        intro p hp hx
        have := List.find?_eq_none.mp hnone p hp
        simp [hx] at this
      refine ⟨?_, h.2.1, h.2.2⟩
      intro p hp hprio henq hrem
      have hmem := h.1 p hp hprio henq hrem
      rw [hready] at hmem
      rcases List.mem_cons.mp hmem with h1 | h2
      · exact absurd h1 (hnopid p hp)
      · exact h2
    · rename_i p hp
      dsimp only
      have hx1 : MLQInvX pid { st with
          ready := (rest, st.ready.2)
          procs := setStartTime pid st.time st.procs } := by
        refine ⟨?_, ?_, nodup_pids_of_eq (pids_setStartTime pid st.time st.procs) h.2.2⟩
        · intro q hq hne hprio henq hrem
          rcases mem_setStartTime_fields pid st.time st.procs q hq with
            ⟨q0, hq0, e1, e2, e3, e4⟩
          have hmem := h.1 q0 hq0 (e2 ▸ hprio) (e3 ▸ henq) (by omega)
          rw [hready] at hmem
          show q.pid ∈ rest
          rw [e1]
          rcases List.mem_cons.mp hmem with h1 | h2
          · exact absurd (e1 ▸ h1) hne
          · exact h2
        · intro pd hpd q hq hpid
          rcases mem_setStartTime_fields pid st.time st.procs q hq with
            ⟨q0, hq0, e1, e2, _, _⟩
          rw [e2]
          exact h.2.1 pd hpd q0 hq0 (e1 ▸ hpid)
      have hx2 := mlqInvX_execUnits_noprio pid (min fgQuantum p.remaining).toNat _ hx1
      have hhas2 : HasPid pid (execUnits mlqView mlqPush pid
          (min fgQuantum p.remaining).toNat { st with
            ready := (rest, st.ready.2)
            procs := setStartTime pid st.time st.procs }).procs := by
        apply hasPid_execUnits
        apply hasPid_setStartTime
        simp [HasPid, hp]
      split
      · rename_i hnone2
        exfalso
        unfold HasPid at hhas2
        rw [hnone2] at hhas2
        simp at hhas2
      · rename_i p2 hp2
        split
        · rename_i hz
          refine ⟨?_, ?_, ?_⟩
          · intro q hq hprio henq hrem
            rcases mem_setCompletion_fields pid _ _ q hq with ⟨q0, hq0, e1, e2, e3, e4⟩
            by_cases hqpid : q0.pid = pid
            · exfalso
              have : q0 = p2 := eq_of_find?_nodup pid _ p2 q0 hx2.2.2 hp2 hq0 hqpid
              rw [this] at e4
              omega
            · have := hx2.1 q0 hq0 hqpid (e2 ▸ hprio) (e3 ▸ henq) (by omega)
              show q.pid ∈ _
              rw [e1]
              exact this
          · intro pd hpd q hq hpid
            rcases mem_setCompletion_fields pid _ _ q hq with ⟨q0, hq0, e1, e2, _, _⟩
            rw [e2]
            exact hx2.2.1 pd hpd q0 hq0 (e1 ▸ hpid)
          · exact nodup_pids_of_eq (pids_setCompletion pid _ _) hx2.2.2
        · refine ⟨?_, hx2.2.1, hx2.2.2⟩
          intro q hq hprio henq hrem
          by_cases hqpid : q.pid = pid
          · show q.pid ∈ _ ++ [pid]
            rw [hqpid]
            exact List.mem_append_right _ (List.mem_singleton.mpr rfl)
          · exact List.mem_append_left _ (hx2.1 q hq hqpid hprio henq hrem)
  · split
    · exact h
    · rename_i pid rest hready2
      split
      · refine ⟨?_, ?_, h.2.2⟩
        · intro q hq hprio henq hrem
          exact h.1 q hq hprio henq hrem
        · intro pd hpd q hq hpid
          apply h.2.1 pd _ q hq hpid
          rw [hready2]
          exact List.mem_cons_of_mem _ hpd
      · rename_i p hp
        dsimp only
        have hprioP : PrioOfPid pid st.procs := by
          intro q hq hqpid
          apply h.2.1 pid _ q hq hqpid
          rw [hready2]
          exact List.mem_cons_self _ _
        have hx1 : MLQInvX pid { st with
            ready := (st.ready.1, rest)
            procs := setStartTime pid st.time st.procs } := by
          refine ⟨?_, ?_, nodup_pids_of_eq (pids_setStartTime pid st.time st.procs) h.2.2⟩
          · intro q hq hne hprio henq hrem
            rcases mem_setStartTime_fields pid st.time st.procs q hq with
              ⟨q0, hq0, e1, e2, e3, e4⟩
            have hmem := h.1 q0 hq0 (e2 ▸ hprio) (e3 ▸ henq) (by omega)
            show q.pid ∈ st.ready.1
            rw [e1]
            exact hmem
          · intro pd hpd q hq hpid
            rcases mem_setStartTime_fields pid st.time st.procs q hq with
              ⟨q0, hq0, e1, e2, _, _⟩
            rw [e2]
            apply h.2.1 pd _ q0 hq0 (e1 ▸ hpid)
            rw [hready2]
            exact List.mem_cons_of_mem _ hpd
        have hprio1 : PrioOfPid pid (setStartTime pid st.time st.procs) :=
          prioOfPid_transfer pid st.procs _ (mem_setStartTime_fields pid st.time st.procs) hprioP
        have hrestoreFg : ∀ (st2 : SimState MLQReady), MLQInvX pid st2 →
            PrioOfPid pid st2.procs →
            (∀ q ∈ st2.procs, q.priority = 0 → q.enqueued = true →
              0 < q.remaining → q.pid ∈ st2.ready.1) := by
          intro st2 hx hpr q hq hprio henq hrem
          by_cases hqpid : q.pid = pid
          · exact absurd hprio (hpr q hq hqpid)
          · exact hx.1 q hq hqpid hprio henq hrem
        split
        · obtain ⟨hx2, hpr2⟩ := mlqInvX_execUnits pid p.remaining.toNat _ hx1 hprio1
          refine ⟨?_, ?_, ?_⟩
          · intro q hq hprio henq hrem
            rcases mem_setCompletion_fields pid _ _ q hq with ⟨q0, hq0, e1, e2, e3, e4⟩
            have := hrestoreFg _ hx2 hpr2 q0 hq0 (e2 ▸ hprio) (e3 ▸ henq) (by omega)
            show q.pid ∈ _
            rw [e1]
            exact this
          · intro pd hpd q hq hpid
            rcases mem_setCompletion_fields pid _ _ q hq with ⟨q0, hq0, e1, e2, _, _⟩
            rw [e2]
            exact hx2.2.1 pd hpd q0 hq0 (e1 ▸ hpid)
          · exact nodup_pids_of_eq (pids_setCompletion pid _ _) hx2.2.2
        · rename_i bq
          obtain ⟨hx2, hpr2⟩ := mlqInvX_execUnits pid (min bq p.remaining).toNat _ hx1 hprio1
          have hhas2 : HasPid pid (execUnits mlqView mlqPush pid
              (min bq p.remaining).toNat { st with
                ready := (st.ready.1, rest)
                procs := setStartTime pid st.time st.procs }).procs := by
            apply hasPid_execUnits
            apply hasPid_setStartTime
            simp [HasPid, hp]
          split
          · rename_i hnone2
            exfalso
            unfold HasPid at hhas2
            rw [hnone2] at hhas2
            simp at hhas2
          · rename_i p2 hp2
            split
            · refine ⟨?_, ?_, ?_⟩
              · intro q hq hprio henq hrem
                rcases mem_setCompletion_fields pid _ _ q hq with ⟨q0, hq0, e1, e2, e3, e4⟩
                have := hrestoreFg _ hx2 hpr2 q0 hq0 (e2 ▸ hprio) (e3 ▸ henq) (by omega)
                show q.pid ∈ _
                rw [e1]
                exact this
              · intro pd hpd q hq hpid
                rcases mem_setCompletion_fields pid _ _ q hq with ⟨q0, hq0, e1, e2, _, _⟩
                rw [e2]
                exact hx2.2.1 pd hpd q0 hq0 (e1 ▸ hpid)
              · exact nodup_pids_of_eq (pids_setCompletion pid _ _) hx2.2.2
            · refine ⟨?_, ?_, hx2.2.2⟩
              · intro q hq hprio henq hrem
                exact hrestoreFg _ hx2 hpr2 q hq hprio henq hrem
              · intro pd hpd q hq hpid
                rcases List.mem_append.mp hpd with hold | hnew
                · exact hx2.2.1 pd hold q hq hpid
                · have : pd = pid := List.mem_singleton.mp hnew
                  exact hpr2 q hq (hpid.trans this)

theorem mlqInv_states (fgQuantum : Int) (bgQuantum : Option Int) :
    ∀ (fuel : Nat) (st : SimState MLQReady), MLQInv st →
      ∀ s ∈ simLoopStates mlqIsEmpty mlqPush (fun _ => [])
          (serveMLQ fgQuantum bgQuantum) fuel st, MLQInv s := by
  intro fuel
  induction fuel with
  | zero => intro st _ s hs; exact absurd hs (List.not_mem_nil s)
  | succ fuel ih =>
    intro st h s hs
    rw [simLoopStates] at hs
    by_cases hc : loopCond mlqIsEmpty st = true
    · rw [if_pos hc] at hs
      by_cases he : mlqIsEmpty (enqueueArrivals mlqPush st).ready = true
      · rw [if_pos he] at hs
        cases hf : findNext (enqueueArrivals mlqPush st).procs with
        | none =>
          rw [hf] at hs
          exact absurd hs (List.not_mem_nil s)
        | some next =>
          rw [hf] at hs
          exact ih _ (mlqInv_enqueueArrivals _
            (mlqInv_idleUnits _ _ (mlqInv_enqueueArrivals st h))) s hs
      · rw [if_neg he] at hs
        rcases List.mem_cons.mp hs with h1 | h2
        · rw [h1]
          exact mlqInv_enqueueArrivals st h
        · exact ih _ (mlqInv_serveMLQ fgQuantum bgQuantum _
            (mlqInv_enqueueArrivals st h)) s h2
    · rw [if_neg hc] at hs
      exact absurd hs (List.not_mem_nil s)

theorem initProcs_not_enqueued (nps : List NProc) :
    ∀ p ∈ initProcs nps, p.enqueued = false := by
  intro p hp
  rcases List.mem_map.mp hp with ⟨q, _, rfl⟩
  rfl

/-- C7: in every MLQ simulation over distinct pids, at every selection
point (the post-admission state of a loop iteration that serves the CPU),
if the foreground queue is empty — which is the only situation in which the
background branch can be selected — then no foreground process (priority 0)
is admitted with remaining work. Hence no background process is ever
selected while a foreground process is admitted and incomplete. -/
theorem mlq_no_bg_selected_while_fg_admitted (processes : List NProc)
    (fgQuantum : Int) (bgQuantum : Option Int)
    (hnd : (processes.map (fun p => p.pid)).Nodup) :
    ∀ s ∈ simLoopStates mlqIsEmpty mlqPush (fun _ => [])
        (serveMLQ fgQuantum bgQuantum) maxIter
        (initState ([], []) mlqPush (sortByArrival (initProcs processes))),
      s.ready.1 = [] →
      ∀ p ∈ s.procs, p.priority = 0 → p.enqueued = true → p.remaining ≤ 0 := by
  have hnd2 : (pids (sortByArrival (initProcs processes))).Nodup := by
    apply nodup_pids_sortByArrival
    rw [pids_initProcs]
    exact hnd
  have hinit : MLQInv (initState ([], []) mlqPush (sortByArrival (initProcs processes))) := by
    apply mlqInv_enqueueArrivals
    refine ⟨?_, ?_, hnd2⟩
    · intro p hp _ henq _
      have : p.enqueued = false :=
        initProcs_not_enqueued processes p ((List.perm_insertionSort _ _).subset hp)
      rw [this] at henq
      exact absurd henq (Bool.false_ne_true)
    · intro pd hpd
      exact absurd hpd (List.not_mem_nil pd)
  intro s hs hfg p hp hprio henq
  by_contra hlt
  have hrem : 0 < p.remaining := by omega
  have hinv := mlqInv_states fgQuantum bgQuantum maxIter _ hinit s hs
  have := hinv.1 p hp hprio henq hrem
  rw [hfg] at this
  exact List.not_mem_nil _ this

/-- Witness for C7 at a concrete run: foreground `F (arrival 0, burst 1,
priority 0)` and background `A (arrival 0, burst 2, priority 1)`; the
second selection point (time 1) has an empty foreground queue and selects
the background branch, and indeed the only admitted priority-0 process
there, `F`, has no remaining work. -/
theorem mlq_no_bg_selected_while_fg_admitted_witness :
    (Proc.mk "F" 0 1 0 0 (some 0) (some 1) true 0 0).remaining ≤ 0 :=
  mlq_no_bg_selected_while_fg_admitted [⟨"F", 0, 1, 0⟩, ⟨"A", 0, 2, 1⟩] 2 (some 4)
    (by decide)
    ⟨1,
     [⟨"F", 0, 1, 0, 0, some 0, some 1, true, 0, 0⟩,
      ⟨"A", 0, 2, 1, 2, none, none, true, 0, 0⟩],
     ([], ["A"]),
     [⟨0, some "F", ["A"],
       [⟨"F", 0, 1, 0, some 0, none, 0⟩,
        ⟨"A", 0, 2, 2, none, none, 1⟩]⟩],
     [⟨0, some "F", ["A"], "exec(F)"⟩]⟩
    (by decide) rfl
    (Proc.mk "F" 0 1 0 0 (some 0) (some 1) true 0 0)
    (by decide) rfl rfl

/-! ## Claim C4 — behaviour at the iteration ceiling

A single RR process with burst 1000000 and quantum 4 needs 250000
scheduling turns, but the loop stops after `maxIter = 200000` iterations
(time 800000, remaining 200000) and finalization silently defaults the
completion time to the final time: no failure is raised. -/

theorem simStateExt {ρ : Type} {s1 s2 : SimState ρ} (h1 : s1.time = s2.time)
    (h2 : s1.procs = s2.procs) (h3 : s1.ready = s2.ready)
    (h4 : s1.history = s2.history) (h5 : s1.trace = s2.trace) : s1 = s2 := by
  cases s1
  cases s2
  dsimp only at h1 h2 h3 h4 h5
  rw [h1, h2, h3, h4, h5]

theorem execUnits_zero {ρ : Type} (view : ρ → List String)
    (push : List Proc → ρ → ρ) (pid : String) (st : SimState ρ) :
    execUnits view push pid 0 st = st := rfl

theorem execUnits_succ {ρ : Type} (view : ρ → List String)
    (push : List Proc → ρ → ρ) (pid : String) (n : Nat) (st : SimState ρ) :
    execUnits view push pid (n + 1) st =
      execUnits view push pid n (execUnit view push pid st) := rfl

/-- One execution unit of the ceiling run's process (already enqueued, no
other process to admit, empty queue) — pure computation. -/
theorem rrUnit_exec (t r : Int) (h : List Snapshot) (tr : List TraceEvent) :
    execUnit rrView rrPush "P1"
        { time := t, procs := [rrUnitProc r], ready := [], history := h, trace := tr } =
      { time := t + 1, procs := [rrUnitProc (r - 1)], ready := [],
        history := h ++ [snapshotState t (some "P1") [rrUnitProc (r - 1)] []],
        trace := tr ++ [TraceEvent.mk t (some "P1") [] "exec(P1)"] } := rfl

theorem rrFuel_enqueue (t : Int) (p : Proc) (q : List String)
    (h : List Snapshot) (tr : List TraceEvent) (he : p.enqueued = true) :
    enqueueArrivals rrPush
        { time := t, procs := [p], ready := q, history := h, trace := tr } =
      { time := t, procs := [p], ready := q, history := h, trace := tr } := by
  simp [enqueueArrivals, rrPush, admitFilter, he]

set_option maxRecDepth 10000 in
theorem rrFuel_step (k : Nat) (h : List Snapshot) (tr : List TraceEvent)
    (hk : k ≤ 199999) :
    ∃ h2 tr2, serveRR 4 (rrFuelState k h tr) = rrFuelState (k + 1) h2 tr2 := by
  have hkle : (k : Int) ≤ 199999 := by exact_mod_cast hk
  have hr4 : (4 : Int) ≤ 1000000 - 4 * (k : Int) := by omega
  have hmin : min (4 : Int) (1000000 - 4 * (k : Int)) = 4 := min_eq_left hr4
  have hfind : List.find? (fun x => x.pid == "P1")
      [rrUnitProc (1000000 - 4 * (k : Int))] =
      some (rrUnitProc (1000000 - 4 * (k : Int))) := by
    simp [rrUnitProc]
  have hstart : setStartTime "P1" (4 * (k : Int))
      [rrUnitProc (1000000 - 4 * (k : Int))] =
      [rrUnitProc (1000000 - 4 * (k : Int))] := by
    simp [setStartTime, updateFirst, rrUnitProc]
  have hfind2 : List.find? (fun x => x.pid == "P1")
      [rrUnitProc (1000000 - 4 * (k : Int) - 1 - 1 - 1 - 1)] =
      some (rrUnitProc (1000000 - 4 * (k : Int) - 1 - 1 - 1 - 1)) := by
    simp [rrUnitProc]
  have hne0 : ¬ ((rrUnitProc (1000000 - 4 * (k : Int) - 1 - 1 - 1 - 1)).remaining = 0) := by
    show ¬ (1000000 - 4 * (k : Int) - 1 - 1 - 1 - 1 = 0)
    omega
  set HB : List Snapshot := (((h ++ [snapshotState (4 * (k : Int)) (some "P1")
        [rrUnitProc (1000000 - 4 * (k : Int) - 1)] []]) ++
      [snapshotState (4 * (k : Int) + 1) (some "P1")
        [rrUnitProc (1000000 - 4 * (k : Int) - 1 - 1)] []]) ++
      [snapshotState (4 * (k : Int) + 1 + 1) (some "P1")
        [rrUnitProc (1000000 - 4 * (k : Int) - 1 - 1 - 1)] []]) ++
      [snapshotState (4 * (k : Int) + 1 + 1 + 1) (some "P1")
        [rrUnitProc (1000000 - 4 * (k : Int) - 1 - 1 - 1 - 1)] []] with hHB
  set TB : List TraceEvent := (((tr ++
      [TraceEvent.mk (4 * (k : Int)) (some "P1") [] "exec(P1)"]) ++
      [TraceEvent.mk (4 * (k : Int) + 1) (some "P1") [] "exec(P1)"]) ++
      [TraceEvent.mk (4 * (k : Int) + 1 + 1) (some "P1") [] "exec(P1)"]) ++
      [TraceEvent.mk (4 * (k : Int) + 1 + 1 + 1) (some "P1") [] "exec(P1)"] with hTB
  have hcomp : serveRR 4 (rrFuelState k h tr) =
      (⟨4 * (k : Int) + 1 + 1 + 1 + 1,
        [rrUnitProc (1000000 - 4 * (k : Int) - 1 - 1 - 1 - 1)],
        [] ++ ["P1"], HB, TB⟩ : SimState (List String)) := by
    unfold serveRR rrFuelState
    dsimp only
    rw [hfind]
    dsimp only
    rw [hstart]
    rw [show (rrUnitProc (1000000 - 4 * (k : Int))).remaining
      = 1000000 - 4 * (k : Int) from rfl]
    rw [hmin]
    rw [show ((4 : Int).toNat) = 3 + 1 from rfl]
    rw [execUnits_succ, rrUnit_exec]
    rw [show (3 : Nat) = 2 + 1 from rfl, execUnits_succ, rrUnit_exec]
    rw [show (2 : Nat) = 1 + 1 from rfl, execUnits_succ, rrUnit_exec]
    rw [show (1 : Nat) = 0 + 1 from rfl, execUnits_succ, rrUnit_exec, execUnits_zero]
    dsimp only
    rw [hfind2]
    dsimp only
    rw [if_neg hne0]
  have hstate : (⟨4 * (k : Int) + 1 + 1 + 1 + 1,
      [rrUnitProc (1000000 - 4 * (k : Int) - 1 - 1 - 1 - 1)],
      [] ++ ["P1"], HB, TB⟩ : SimState (List String)) =
      rrFuelState (k + 1) HB TB := by
    refine simStateExt ?_ ?_ ?_ rfl rfl
    · show 4 * (k : Int) + 1 + 1 + 1 + 1 = 4 * ((k + 1 : Nat) : Int)
      push_cast
      ring
    · show [rrUnitProc (1000000 - 4 * (k : Int) - 1 - 1 - 1 - 1)]
        = [rrUnitProc (1000000 - 4 * ((k + 1 : Nat) : Int))]
      have he : (1000000 : Int) - 4 * (k : Int) - 1 - 1 - 1 - 1
          = 1000000 - 4 * ((k + 1 : Nat) : Int) := by
        push_cast
        ring
      rw [he]
    · show [] ++ ["P1"] = ["P1"]
      rfl
  exact ⟨HB, TB, hcomp.trans hstate⟩

theorem rrFuel_cond (k : Nat) (h : List Snapshot) (tr : List TraceEvent)
    (hk : k ≤ 199999) :
    loopCond List.isEmpty (rrFuelState k h tr) = true := by
  have : (k : Int) ≤ 199999 := by exact_mod_cast hk
  simp [loopCond, rrFuelState, rrUnitProc]

theorem rrFuel_loop :
    ∀ (m k : Nat) (h : List Snapshot) (tr : List TraceEvent), k + m = 200000 →
      ∃ h2 tr2, simLoop List.isEmpty rrPush rrView (serveRR 4) m
          (rrFuelState k h tr) = rrFuelState 200000 h2 tr2 := by
  intro m
  induction m with
  | zero =>
    intro k h tr hk
    have : k = 200000 := by omega
    subst this
    exact ⟨h, tr, rfl⟩
  | succ m ih =>
    intro k h tr hk
    have hk2 : k ≤ 199999 := by omega
    rw [simLoop, if_pos (rrFuel_cond k h tr hk2)]
    rw [show enqueueArrivals rrPush (rrFuelState k h tr) = rrFuelState k h tr from
      rrFuel_enqueue _ _ _ _ _ rfl]
    rw [if_neg (by simp [rrFuelState])]
    obtain ⟨h2, tr2, hstep⟩ := rrFuel_step k h tr hk2
    rw [hstep]
    exact ih (k + 1) h2 tr2 (by omega)

/-- C4 counterexample: `simulate "RR"` on a single process with burst
1000000 (quantum 4) reaches the 200000-iteration ceiling and does not fail
with any `InternalLimitExceeded` condition: it returns a normal result
whose process still has remaining = 200000 yet carries completionTime =
800000 (defaulted to the final simulated time) and turnaround = 800000. -/
theorem rr_iteration_ceiling_truncates :
    (simulate "RR" [⟨"P1", 0, 1000000, none⟩] {}).stats.processes.map
        (fun p => (p.pid, p.remaining, p.completionTime, p.turnaround)) =
      [("P1", 200000, some 800000, 800000)] := by
  have hinit : initState [] rrPush (sortByArrival (initProcs [⟨"P1", 0, 1000000, 0⟩])) =
      (⟨0, [⟨"P1", 0, 1000000, 0, 1000000, none, none, true, 0, 0⟩],
        ["P1"], [], []⟩ : SimState (List String)) := by decide
  have hfirst : serveRR 4
      (⟨0, [⟨"P1", 0, 1000000, 0, 1000000, none, none, true, 0, 0⟩],
        ["P1"], [], []⟩ : SimState (List String)) =
      rrFuelState 1
        (serveRR 4 (⟨0, [⟨"P1", 0, 1000000, 0, 1000000, none, none, true, 0, 0⟩],
          ["P1"], [], []⟩ : SimState (List String))).history
        (serveRR 4 (⟨0, [⟨"P1", 0, 1000000, 0, 1000000, none, none, true, 0, 0⟩],
          ["P1"], [], []⟩ : SimState (List String))).trace := by decide
  have hrun : ∃ h3 tr3, simLoop List.isEmpty rrPush rrView (serveRR 4) maxIter
      (initState [] rrPush (sortByArrival (initProcs [⟨"P1", 0, 1000000, 0⟩]))) =
      rrFuelState 200000 h3 tr3 := by
    rw [hinit]
    rw [show maxIter = 199999 + 1 from rfl, simLoop]
    rw [if_pos (by decide)]
    rw [show enqueueArrivals rrPush
        (⟨0, [⟨"P1", 0, 1000000, 0, 1000000, none, none, true, 0, 0⟩],
          ["P1"], [], []⟩ : SimState (List String)) =
      (⟨0, [⟨"P1", 0, 1000000, 0, 1000000, none, none, true, 0, 0⟩],
        ["P1"], [], []⟩ : SimState (List String)) from
      rrFuel_enqueue _ _ _ _ _ rfl]
    rw [if_neg (by decide)]
    rw [hfirst]
    exact rrFuel_loop 199999 1 _ _ (by omega)
  obtain ⟨h3, tr3, hrun⟩ := hrun
  show (finishRun (simLoop List.isEmpty rrPush rrView (serveRR 4) maxIter
      (initState [] rrPush (sortByArrival (initProcs
        [⟨"P1", 0, 1000000, 0⟩]))))).stats.processes.map
      (fun p => (p.pid, p.remaining, p.completionTime, p.turnaround)) = _
  rw [hrun]
  show (finalizeProcs (rrFuelState 200000 h3 tr3).time
      (rrFuelState 200000 h3 tr3).procs).map
      (fun p => (p.pid, p.remaining, p.completionTime, p.turnaround)) = _
  simp [finalizeProcs, rrFuelState, rrUnitProc]

/-- C4 amended: `simulate` never fails; finalization always runs and gives
every process a concrete completion time (the loop-recorded one, or the
final simulated time as a default when the loop stopped — iteration ceiling
included — before completing it), with `turnaround = completionTime -
arrival` computed from it. -/
theorem simulate_always_finalizes (alg : String) (ps : List ProcIn)
    (opts : SimOptions) :
    ∀ p ∈ (simulate alg ps opts).stats.processes,
      ∃ ct, p.completionTime = some ct ∧ p.turnaround = ct - p.arrival := by
  have key : ∀ (t : Int) (l : List Proc) (p : Proc), p ∈ finalizeProcs t l →
      ∃ ct, p.completionTime = some ct ∧ p.turnaround = ct - p.arrival := by
    intro t l p hp
    rcases List.mem_map.mp hp with ⟨q, _, rfl⟩
    exact ⟨q.completionTime.getD t, rfl, rfl⟩
  unfold simulate
  split <;> exact fun p hp => key _ _ p hp

/-- Witness for C4 amended at a concrete run. -/
theorem simulate_always_finalizes_witness :
    ∃ ct, (Proc.mk "P1" 0 1 0 0 (some 0) (some 1) true 1 0).completionTime = some ct ∧
      (Proc.mk "P1" 0 1 0 0 (some 0) (some 1) true 1 0).turnaround
        = ct - (Proc.mk "P1" 0 1 0 0 (some 0) (some 1) true 1 0).arrival :=
  simulate_always_finalizes "RR" [⟨"P1", 0, 1, none⟩] {}
    (Proc.mk "P1" 0 1 0 0 (some 0) (some 1) true 1 0) (by decide)

/-! ## Claim C1 — MLQ background discipline under `simulate` without `mlqBgQuantum`

`simulateMLQ` itself runs the background queue FCFS-to-completion when its
`bgQuantum` parameter is null, exactly as its doc comment states. But the
dispatch in `simulate` passes `options.mlqBgQuantum ?? 4`, so an options
object that does not supply `mlqBgQuantum` (or supplies `null`, as app.js
does when the UI field is empty) still yields background quantum 4, and
background processes are preempted and re-enqueued. -/

/-- C1: with two background processes `A (arrival 0, burst 5, priority 1)`
and `B (arrival 1, burst 1, priority 1)` and an options object not
supplying `mlqBgQuantum`, `simulate "MLQ"` preempts `A` after 4 units and
runs `B` before `A` finishes — `A`, once selected, does not run FCFS to
completion. Under the claimed FCFS-to-completion discipline the CPU
sequence would be `A,A,A,A,A,B`. -/
theorem mlq_default_bg_quantum_preempts_background :
    (simulate "MLQ" [⟨"A", 0, 5, some 1⟩, ⟨"B", 1, 1, some 1⟩] {}).trace.map
        (fun e => e.cpu) =
      [some "A", some "A", some "A", some "A", some "B", some "A"] := by
  decide

/-! ## Claim C2 — unrecognized algorithm tags -/

/-- C2 counterexample: `simulate` with the unrecognized tag `"LOTTERY"`
does not fail: it executes Round Robin, returning the identical result, and
produces a non-empty trace (a scheduling algorithm did run). -/
theorem unknown_tag_executes_round_robin :
    simulate "LOTTERY" [⟨"P1", 0, 3, none⟩] {} =
      simulate "RR" [⟨"P1", 0, 3, none⟩] {} ∧
    (simulate "LOTTERY" [⟨"P1", 0, 3, none⟩] {}).trace ≠ [] := by
  constructor
  · rfl
  · decide

/-- C2 amended: for every tag outside `{RR, FCFS, SJF, PRIORITY, MLQ}`,
`simulate` does not fail with an `UnsupportedAlgorithm` condition; it
silently dispatches to `simulateRR` on the normalized process list with
quantum `options.quantum ?? 4`. -/
theorem simulate_unknown_tag_defaults_to_rr (alg : String) (ps : List ProcIn)
    (opts : SimOptions) (h1 : alg ≠ "RR") (h2 : alg ≠ "FCFS")
    (h3 : alg ≠ "SJF") (h4 : alg ≠ "PRIORITY") (h5 : alg ≠ "MLQ") :
    simulate alg ps opts =
      simulateRR (ps.map fun p => NProc.mk p.pid p.arrival p.burst (p.priority.getD 0))
        (opts.quantum.getD 4) := by
  unfold simulate
  split <;> simp_all

/-- Witness for C2 amended at the concrete tag `"LOTTERY"`. -/
theorem simulate_unknown_tag_defaults_to_rr_witness :
    simulate "LOTTERY" [⟨"P1", 0, 3, none⟩] {} =
      simulateRR [⟨"P1", 0, 3, 0⟩] 4 :=
  simulate_unknown_tag_defaults_to_rr "LOTTERY" [⟨"P1", 0, 3, none⟩] {}
    (by decide) (by decide) (by decide) (by decide) (by decide)

/-! ## Claim C3 — empty process list -/

/-- C3 counterexample: on the empty process list `simulate` does not fail
with an `InvalidInput` condition; it reaches the statistics computation and
returns statistics whose average waiting time is `NaN` (the JS value of
`0/0`). -/
theorem empty_process_list_yields_nan_stats :
    (simulate "RR" [] {}).stats.avgWaiting = JsNum.nan := by decide

/-- C3 amended: for every algorithm tag and options, `simulate` on the
empty process list returns normally (an empty trace, no failure), and the
returned statistics contain `NaN`: both averages are `0/0 = NaN`. -/
theorem simulate_empty_returns_nan_without_failure (alg : String)
    (opts : SimOptions) :
    (simulate alg [] opts).trace = [] ∧
    (simulate alg [] opts).stats.avgWaiting = JsNum.nan ∧
    (simulate alg [] opts).stats.avgTurnaround = JsNum.nan := by
  unfold simulate
  split <;> exact ⟨rfl, rfl, rfl⟩

/-! ## Claim C5 machinery — non-positive bursts never run

`enqueueArrivals` admits only processes with `remaining > 0`; a process
whose burst is non-positive starts with `remaining = burst ≤ 0`, so it is
never admitted to a ready structure, never executes a unit, and keeps its
initial runtime fields until finalization defaults its completion time. -/

theorem pid_inj {l : List Proc} (hnd : (pids l).Nodup) {p q : Proc}
    (hp : p ∈ l) (hq : q ∈ l) (hpq : p.pid = q.pid) : p = q := by
  unfold pids at hnd
  exact List.inj_on_of_nodup_map hnd hp hq hpq

theorem admitFilter_nonpos (t : Int) (p : Proc) (h : p.remaining ≤ 0) :
    admitFilter t p = false := by
  unfold admitFilter
  rw [decide_eq_false (by omega : ¬ 0 < p.remaining), Bool.and_false]

theorem enqueue_map_np (t : Int) (l : List Proc)
    (hfr : ∀ p ∈ l, p.burst ≤ 0 → p.remaining = p.burst) :
    ∀ q ∈ l.map (fun p => if admitFilter t p then { p with enqueued := true } else p),
      q.burst ≤ 0 → q ∈ l := by
  intro q hq hb
  rcases List.mem_map.mp hq with ⟨p, hp, hqe⟩
  by_cases hadm : admitFilter t p = true
  · rw [if_pos hadm] at hqe
    exfalso
    have hpb : p.burst ≤ 0 := by rw [← hqe] at hb; exact hb
    have hfl := admitFilter_nonpos t p (by rw [hfr p hp hpb]; exact hpb)
    rw [hfl] at hadm
    exact Bool.false_ne_true hadm
  · rw [if_neg hadm] at hqe
    rw [← hqe]
    exact hp

theorem npInv_enqueueArrivals {ρ : Type} {rp : ρ → List String}
    {push : List Proc → ρ → ρ} (hpush : PushSub rp push)
    (st : SimState ρ) (h : NPInv rp st) : NPInv rp (enqueueArrivals push st) := by
  obtain ⟨hnd, hinv⟩ := h
  refine ⟨nodup_pids_of_eq (pids_enqueueArrivals push st) hnd, ?_⟩
  intro q hq hb
  have hql : q ∈ st.procs :=
    enqueue_map_np st.time st.procs (fun p hp hb0 => (hinv p hp hb0).1) q hq hb
  obtain ⟨h1, h2, h3, h4, h5, h6⟩ := hinv q hql hb
  refine ⟨h1, h2, h3, h4, ?_, h6⟩
  intro hmem
  rcases hpush _ _ _ hmem with hr | hl
  · exact h5 hr
  · unfold pids at hl
    rcases List.mem_map.mp hl with ⟨w, hw, hwp⟩
    rcases List.mem_filter.mp hw with ⟨hwl, hwadm⟩
    rw [pid_inj hnd hwl hql hwp] at hwadm
    rw [admitFilter_nonpos st.time q (by rw [h1]; exact hb)] at hwadm
    exact Bool.false_ne_true hwadm

theorem mem_updateFirst_pid_burst {g : Proc → Proc}
    (hg : ∀ a, (g a).pid = a.pid ∧ (g a).burst = a.burst) (f : Proc → Bool)
    (l : List Proc) : ∀ q ∈ updateFirst f g l,
      ∃ q0 ∈ l, q.pid = q0.pid ∧ q.burst = q0.burst := by
  intro q hq
  rcases mem_updateFirst hq with hql | ⟨q0, hq0, hf, hqg⟩
  · exact ⟨q, hql, rfl, rfl⟩
  · exact ⟨q0, hq0, by rw [hqg]; exact (hg q0).1, by rw [hqg]; exact (hg q0).2⟩

theorem np_updateFirst {g : Proc → Proc} (hg : ∀ a, (g a).burst = a.burst)
    (pid : String) (l : List Proc)
    (hbp : ∀ p ∈ l, p.burst ≤ 0 → p.pid ≠ pid) :
    ∀ q ∈ updateFirst (fun x => x.pid == pid) g l, q.burst ≤ 0 → q ∈ l := by
  intro q hq hb
  rcases mem_updateFirst hq with hql | ⟨q0, hq0, hf, hqg⟩
  · exact hql
  · exfalso
    have hq0b : q0.burst ≤ 0 := by rw [hqg, hg q0] at hb; exact hb
    exact hbp q0 hq0 hq0b (by simpa using hf)

theorem badpid_of_pid_burst {l l2 : List Proc} (pid : String)
    (hpb : ∀ q ∈ l2, ∃ q0 ∈ l, q.pid = q0.pid ∧ q.burst = q0.burst)
    (hbp : ∀ p ∈ l, p.burst ≤ 0 → p.pid ≠ pid) :
    ∀ p ∈ l2, p.burst ≤ 0 → p.pid ≠ pid := by
  intro p hp hb
  rcases hpb p hp with ⟨q0, hq0, e1, e2⟩
  rw [e1]
  exact hbp q0 hq0 (by rw [← e2]; exact hb)

theorem execUnit_pid_burst {ρ : Type} (view : ρ → List String)
    (push : List Proc → ρ → ρ) (pid : String) (st : SimState ρ) :
    ∀ q ∈ (execUnit view push pid st).procs,
      ∃ q0 ∈ st.procs, q.pid = q0.pid ∧ q.burst = q0.burst := by
  intro q hq
  have hq2 : q ∈ (decrement pid st.procs).map
      (fun p => if admitFilter (st.time + 1) p then { p with enqueued := true } else p) := hq
  rcases List.mem_map.mp hq2 with ⟨a, ha, hae⟩
  have hpa : q.pid = a.pid ∧ q.burst = a.burst := by
    by_cases hadm : admitFilter (st.time + 1) a = true
    · rw [if_pos hadm] at hae
      exact ⟨by rw [← hae], by rw [← hae]⟩
    · rw [if_neg hadm] at hae
      rw [← hae]
      exact ⟨rfl, rfl⟩
  have ha2 : a ∈ updateFirst (fun x => x.pid == pid)
      (fun p => { p with remaining := p.remaining - 1 }) st.procs := ha
  rcases @mem_updateFirst_pid_burst (fun p => { p with remaining := p.remaining - 1 })
    (fun a0 => ⟨rfl, rfl⟩) (fun x => x.pid == pid) st.procs a ha2 with ⟨q0, hq0, e1, e2⟩
  exact ⟨q0, hq0, hpa.1.trans e1, hpa.2.trans e2⟩

theorem npInv_execUnit {ρ : Type} {rp : ρ → List String}
    {push : List Proc → ρ → ρ} (hpush : PushSub rp push)
    (view : ρ → List String) (pid : String) (st : SimState ρ)
    (h : NPInv rp st) (hbp : ∀ p ∈ st.procs, p.burst ≤ 0 → p.pid ≠ pid) :
    NPInv rp (execUnit view push pid st) := by
  obtain ⟨hnd, hinv⟩ := h
  have hmid : NPInv rp { st with
      procs := decrement pid st.procs
      history := st.history ++ [snapshotState st.time (some pid)
        (decrement pid st.procs) (view st.ready)]
      trace := st.trace ++ [TraceEvent.mk st.time (some pid) (view st.ready)
        ("exec(" ++ pid ++ ")")]
      time := st.time + 1 } := by
    refine ⟨nodup_pids_of_eq (pids_decrement pid st.procs) hnd, ?_⟩
    intro q hq hb
    have hql : q ∈ st.procs :=
      @np_updateFirst (fun p => { p with remaining := p.remaining - 1 })
        (fun a => rfl) pid st.procs hbp q hq hb
    obtain ⟨h1, h2, h3, h4, h5, h6⟩ := hinv q hql hb
    refine ⟨h1, h2, h3, h4, h5, ?_⟩
    intro e he
    rcases List.mem_append.mp he with he | he
    · exact h6 e he
    · rw [List.mem_singleton.mp he]
      intro hctr
      exact hbp q hql hb (Option.some.inj hctr).symm
  exact npInv_enqueueArrivals hpush _ hmid

theorem npInv_execUnits {ρ : Type} {rp : ρ → List String}
    {push : List Proc → ρ → ρ} (hpush : PushSub rp push)
    (view : ρ → List String) (pid : String) :
    ∀ (n : Nat) (st : SimState ρ), NPInv rp st →
      (∀ p ∈ st.procs, p.burst ≤ 0 → p.pid ≠ pid) →
      NPInv rp (execUnits view push pid n st) ∧
      ∀ p ∈ (execUnits view push pid n st).procs, p.burst ≤ 0 → p.pid ≠ pid := by
  intro n
  induction n with
  | zero => intro st h hbp; exact ⟨h, hbp⟩
  | succ n ih =>
    intro st h hbp
    rw [execUnits_succ]
    exact ih (execUnit view push pid st) (npInv_execUnit hpush view pid st h hbp)
      (badpid_of_pid_burst pid (execUnit_pid_burst view push pid st) hbp)

theorem npInv_idleUnit {ρ : Type} {rp : ρ → List String}
    (idleReady : ρ → List String) (st : SimState ρ) (h : NPInv rp st) :
    NPInv rp (idleUnit idleReady st) := by
  obtain ⟨hnd, hinv⟩ := h
  refine ⟨hnd, ?_⟩
  intro q hq hb
  obtain ⟨h1, h2, h3, h4, h5, h6⟩ := hinv q hq hb
  refine ⟨h1, h2, h3, h4, h5, ?_⟩
  intro e he
  rcases List.mem_append.mp he with he | he
  · exact h6 e he
  · rw [List.mem_singleton.mp he]
    intro hctr
    exact Option.noConfusion hctr

theorem npInv_idleUnits {ρ : Type} {rp : ρ → List String}
    (idleReady : ρ → List String) :
    ∀ (n : Nat) (st : SimState ρ), NPInv rp st →
      NPInv rp (idleUnits idleReady n st) := by
  intro n
  induction n with
  | zero => intro st h; exact h
  | succ n ih => intro st h; exact ih _ (npInv_idleUnit idleReady st h)

theorem setStartTime_np (pid : String) (t : Int) (l : List Proc)
    (hbp : ∀ p ∈ l, p.burst ≤ 0 → p.pid ≠ pid) :
    ∀ q ∈ setStartTime pid t l, q.burst ≤ 0 → q ∈ l := by
  intro q hq hb
  refine np_updateFirst ?_ pid l hbp q hq hb
  intro a
  by_cases hs : a.startTime = none
  · rw [if_pos hs]
  · rw [if_neg hs]

theorem setCompletion_np (pid : String) (t : Int) (l : List Proc)
    (hbp : ∀ p ∈ l, p.burst ≤ 0 → p.pid ≠ pid) :
    ∀ q ∈ setCompletion pid t l, q.burst ≤ 0 → q ∈ l := by
  intro q hq hb
  exact @np_updateFirst (fun p => { p with completionTime := some t })
    (fun a => rfl) pid l hbp q hq hb

theorem setStartTime_pid_burst (pid : String) (t : Int) (l : List Proc) :
    ∀ q ∈ setStartTime pid t l, ∃ q0 ∈ l, q.pid = q0.pid ∧ q.burst = q0.burst := by
  intro q hq
  refine mem_updateFirst_pid_burst ?_ _ l q hq
  intro a
  constructor
  · by_cases hs : a.startTime = none
    · rw [if_pos hs]
    · rw [if_neg hs]
  · by_cases hs : a.startTime = none
    · rw [if_pos hs]
    · rw [if_neg hs]

theorem rrPushSub : PushSub rrView rrPush := by
  intro l r x hx
  rcases List.mem_append.mp hx with h1 | h2
  · exact Or.inl h1
  · exact Or.inr h2

theorem mlqPushSub : PushSub mlqView mlqPush := by
  intro l r x hx
  rcases List.mem_append.mp hx with h1 | h2
  · rcases List.mem_append.mp h1 with h3 | h4
    · exact Or.inl (List.mem_append_left _ h3)
    · refine Or.inr ?_
      rcases List.mem_map.mp h4 with ⟨w, hw, hwx⟩
      exact hwx ▸ List.mem_map_of_mem _ (List.mem_of_mem_filter hw)
  · rcases List.mem_append.mp h2 with h3 | h4
    · exact Or.inl (List.mem_append_right _ h3)
    · refine Or.inr ?_
      rcases List.mem_map.mp h4 with ⟨w, hw, hwx⟩
      exact hwx ▸ List.mem_map_of_mem _ (List.mem_of_mem_filter hw)

theorem mlq_mem_shift {x pid : String} {rest bg : List String}
    (h : x ∉ (pid :: rest) ++ bg) : x ∉ rest ++ bg := by
  intro hx
  apply h
  rcases List.mem_append.mp hx with h1 | h2
  · exact List.mem_append_left _ (List.mem_cons_of_mem _ h1)
  · exact List.mem_append_right _ h2

theorem mlq_mem_shift2 {x pid : String} {fg rest : List String}
    (h : x ∉ fg ++ (pid :: rest)) : x ∉ fg ++ rest := by
  intro hx
  apply h
  rcases List.mem_append.mp hx with h1 | h2
  · exact List.mem_append_left _ h1
  · exact List.mem_append_right _ (List.mem_cons_of_mem _ h2)

theorem mlq_mem_requeue_fg {x pid : String} {fg bg : List String}
    (h : x ∉ fg ++ bg) (hne : x ≠ pid) : x ∉ (fg ++ [pid]) ++ bg := by
  intro hx
  rcases List.mem_append.mp hx with h1 | h2
  · rcases List.mem_append.mp h1 with h3 | h4
    · exact h (List.mem_append_left _ h3)
    · exact hne (List.mem_singleton.mp h4)
  · exact h (List.mem_append_right _ h2)

theorem mlq_mem_requeue_bg {x pid : String} {fg bg : List String}
    (h : x ∉ fg ++ bg) (hne : x ≠ pid) : x ∉ fg ++ (bg ++ [pid]) := by
  intro hx
  rcases List.mem_append.mp hx with h1 | h2
  · exact h (List.mem_append_left _ h1)
  · rcases List.mem_append.mp h2 with h3 | h4
    · exact h (List.mem_append_right _ h3)
    · exact hne (List.mem_singleton.mp h4)

theorem initProcs_fields (nps : List NProc) :
    ∀ p ∈ initProcs nps, p.remaining = p.burst ∧ p.startTime = none ∧
      p.completionTime = none ∧ p.enqueued = false := by
  intro p hp
  unfold initProcs at hp
  rcases List.mem_map.mp hp with ⟨a, _, hae⟩
  rw [← hae]
  exact ⟨rfl, rfl, rfl, rfl⟩

theorem npInv_simLoop {ρ : Type} {rp : ρ → List String} (isEmpty : ρ → Bool)
    {push : List Proc → ρ → ρ} (idleReady : ρ → List String)
    (serve : SimState ρ → SimState ρ) (hpush : PushSub rp push)
    (hserve : ∀ st, NPInv rp st → NPInv rp (serve st)) :
    ∀ (fuel : Nat) (st : SimState ρ), NPInv rp st →
      NPInv rp (simLoop isEmpty push idleReady serve fuel st) := by
  intro fuel
  induction fuel with
  | zero => intro st h; exact h
  | succ fuel ih =>
    intro st h
    rw [simLoop]
    by_cases hc : loopCond isEmpty st = true
    · rw [if_pos hc]
      by_cases he : isEmpty (enqueueArrivals push st).ready = true
      · rw [if_pos he]
        cases hf : findNext (enqueueArrivals push st).procs with
        | none => exact npInv_enqueueArrivals hpush st h
        | some next =>
          exact ih _ (npInv_enqueueArrivals hpush _
            (npInv_idleUnits idleReady _ _ (npInv_enqueueArrivals hpush st h)))
      · rw [if_neg he]
        exact ih _ (hserve _ (npInv_enqueueArrivals hpush st h))
    · rw [if_neg hc]
      exact h

theorem npInv_serveRR (quantum : Int) (st : SimState (List String))
    (h : NPInv rrView st) : NPInv rrView (serveRR quantum st) := by
  unfold serveRR
  split
  · exact h
  · rename_i pid rest hready
    have hbp : ∀ q ∈ st.procs, q.burst ≤ 0 → q.pid ≠ pid := by
      intro q hq hb hqp
      apply (h.2 q hq hb).2.2.2.2.1
      show q.pid ∈ st.ready
      rw [hready, hqp]
      exact List.mem_cons_self _ _
    split
    · refine ⟨h.1, ?_⟩
      intro q hq hb
      obtain ⟨h1, h2, h3, h4, h5, h6⟩ := h.2 q hq hb
      refine ⟨h1, h2, h3, h4, ?_, h6⟩
      intro hmem
      apply h5
      show q.pid ∈ st.ready
      rw [hready]
      exact List.mem_cons_of_mem _ hmem
    · rename_i p hp
      dsimp only
      have hst1 : NPInv rrView { st with
          ready := rest
          procs := setStartTime pid st.time st.procs } := by
        refine ⟨nodup_pids_of_eq (pids_setStartTime pid st.time st.procs) h.1, ?_⟩
        intro q hq hb
        have hql := setStartTime_np pid st.time st.procs hbp q hq hb
        obtain ⟨h1, h2, h3, h4, h5, h6⟩ := h.2 q hql hb
        refine ⟨h1, h2, h3, h4, ?_, h6⟩
        intro hmem
        apply h5
        show q.pid ∈ st.ready
        rw [hready]
        exact List.mem_cons_of_mem _ hmem
      have hbp1 := badpid_of_pid_burst pid (setStartTime_pid_burst pid st.time st.procs) hbp
      obtain ⟨h2, hbp2⟩ := npInv_execUnits rrPushSub rrView pid
        (min quantum p.remaining).toNat _ hst1 hbp1
      split
      · exact h2
      · rename_i p2 hp2
        split
        · refine ⟨nodup_pids_of_eq (pids_setCompletion pid _ _) h2.1, ?_⟩
          intro q hq hb
          exact h2.2 q (setCompletion_np pid _ _ hbp2 q hq hb) hb
        · refine ⟨h2.1, ?_⟩
          intro q hq hb
          obtain ⟨h1, hc2, h3, h4, h5, h6⟩ := h2.2 q hq hb
          refine ⟨h1, hc2, h3, h4, ?_, h6⟩
          intro hmem
          rcases List.mem_append.mp hmem with hmem | hmem
          · exact h5 hmem
          · exact hbp2 q hq hb (List.mem_singleton.mp hmem)

theorem npInv_serveFCFS (st : SimState (List String))
    (h : NPInv rrView st) : NPInv rrView (serveFCFS st) := by
  unfold serveFCFS
  split
  · exact h
  · rename_i pid rest hready
    have hbp : ∀ q ∈ st.procs, q.burst ≤ 0 → q.pid ≠ pid := by
      intro q hq hb hqp
      apply (h.2 q hq hb).2.2.2.2.1
      show q.pid ∈ st.ready
      rw [hready, hqp]
      exact List.mem_cons_self _ _
    split
    · refine ⟨h.1, ?_⟩
      intro q hq hb
      obtain ⟨h1, h2, h3, h4, h5, h6⟩ := h.2 q hq hb
      refine ⟨h1, h2, h3, h4, ?_, h6⟩
      intro hmem
      apply h5
      show q.pid ∈ st.ready
      rw [hready]
      exact List.mem_cons_of_mem _ hmem
    · rename_i p hp
      dsimp only
      have hst1 : NPInv rrView { st with
          ready := rest
          procs := setStartTime pid st.time st.procs } := by
        refine ⟨nodup_pids_of_eq (pids_setStartTime pid st.time st.procs) h.1, ?_⟩
        intro q hq hb
        have hql := setStartTime_np pid st.time st.procs hbp q hq hb
        obtain ⟨h1, h2, h3, h4, h5, h6⟩ := h.2 q hql hb
        refine ⟨h1, h2, h3, h4, ?_, h6⟩
        intro hmem
        apply h5
        show q.pid ∈ st.ready
        rw [hready]
        exact List.mem_cons_of_mem _ hmem
      have hbp1 := badpid_of_pid_burst pid (setStartTime_pid_burst pid st.time st.procs) hbp
      obtain ⟨h2, hbp2⟩ := npInv_execUnits rrPushSub rrView pid
        p.remaining.toNat _ hst1 hbp1
      refine ⟨nodup_pids_of_eq (pids_setCompletion pid _ _) h2.1, ?_⟩
      intro q hq hb
      exact h2.2 q (setCompletion_np pid _ _ hbp2 q hq hb) hb

theorem npInv_serveSJF (st : SimState (List String))
    (h : NPInv rrView st) : NPInv rrView (serveSJF st) := by
  have hsub : ∀ x : String, x ∈ sjfSort st.procs st.ready → x ∈ st.ready := by
    intro x hx
    exact (List.perm_insertionSort _ st.ready).subset hx
  unfold serveSJF
  dsimp only
  split
  · refine ⟨h.1, ?_⟩
    intro q hq hb
    obtain ⟨h1, h2, h3, h4, h5, h6⟩ := h.2 q hq hb
    refine ⟨h1, h2, h3, h4, ?_, h6⟩
    intro hmem
    exact h5 (hsub _ hmem)
  · rename_i pid rest hsorted
    have hbp : ∀ q ∈ st.procs, q.burst ≤ 0 → q.pid ≠ pid := by
      intro q hq hb hqp
      apply (h.2 q hq hb).2.2.2.2.1
      apply hsub
      rw [hsorted, hqp]
      exact List.mem_cons_self _ _
    split
    · refine ⟨h.1, ?_⟩
      intro q hq hb
      obtain ⟨h1, h2, h3, h4, h5, h6⟩ := h.2 q hq hb
      refine ⟨h1, h2, h3, h4, ?_, h6⟩
      intro hmem
      apply h5
      apply hsub
      rw [hsorted]
      exact List.mem_cons_of_mem _ hmem
    · rename_i p hp
      have hst1 : NPInv rrView { st with
          ready := rest
          procs := setStartTime pid st.time st.procs } := by
        refine ⟨nodup_pids_of_eq (pids_setStartTime pid st.time st.procs) h.1, ?_⟩
        intro q hq hb
        have hql := setStartTime_np pid st.time st.procs hbp q hq hb
        obtain ⟨h1, h2, h3, h4, h5, h6⟩ := h.2 q hql hb
        refine ⟨h1, h2, h3, h4, ?_, h6⟩
        intro hmem
        apply h5
        apply hsub
        rw [hsorted]
        exact List.mem_cons_of_mem _ hmem
      have hbp1 := badpid_of_pid_burst pid (setStartTime_pid_burst pid st.time st.procs) hbp
      obtain ⟨h2, hbp2⟩ := npInv_execUnits rrPushSub rrView pid
        p.remaining.toNat _ hst1 hbp1
      refine ⟨nodup_pids_of_eq (pids_setCompletion pid _ _) h2.1, ?_⟩
      intro q hq hb
      exact h2.2 q (setCompletion_np pid _ _ hbp2 q hq hb) hb

theorem npInv_servePriority (st : SimState (List String))
    (h : NPInv rrView st) : NPInv rrView (servePriority st) := by
  have hsub : ∀ x : String, x ∈ prioritySort st.procs st.ready → x ∈ st.ready := by
    intro x hx
    exact (List.perm_insertionSort _ st.ready).subset hx
  unfold servePriority
  dsimp only
  split
  · refine ⟨h.1, ?_⟩
    intro q hq hb
    obtain ⟨h1, h2, h3, h4, h5, h6⟩ := h.2 q hq hb
    refine ⟨h1, h2, h3, h4, ?_, h6⟩
    intro hmem
    exact h5 (hsub _ hmem)
  · rename_i pid rest hsorted
    have hbp : ∀ q ∈ st.procs, q.burst ≤ 0 → q.pid ≠ pid := by
      intro q hq hb hqp
      apply (h.2 q hq hb).2.2.2.2.1
      apply hsub
      rw [hsorted, hqp]
      exact List.mem_cons_self _ _
    split
    · refine ⟨h.1, ?_⟩
      intro q hq hb
      obtain ⟨h1, h2, h3, h4, h5, h6⟩ := h.2 q hq hb
      refine ⟨h1, h2, h3, h4, ?_, h6⟩
      intro hmem
      apply h5
      apply hsub
      rw [hsorted]
      exact List.mem_cons_of_mem _ hmem
    · rename_i p hp
      have hst1 : NPInv rrView { st with
          ready := rest
          procs := setStartTime pid st.time st.procs } := by
        refine ⟨nodup_pids_of_eq (pids_setStartTime pid st.time st.procs) h.1, ?_⟩
        intro q hq hb
        have hql := setStartTime_np pid st.time st.procs hbp q hq hb
        obtain ⟨h1, h2, h3, h4, h5, h6⟩ := h.2 q hql hb
        refine ⟨h1, h2, h3, h4, ?_, h6⟩
        intro hmem
        apply h5
        apply hsub
        rw [hsorted]
        exact List.mem_cons_of_mem _ hmem
      have hbp1 := badpid_of_pid_burst pid (setStartTime_pid_burst pid st.time st.procs) hbp
      obtain ⟨h2, hbp2⟩ := npInv_execUnits rrPushSub rrView pid
        p.remaining.toNat _ hst1 hbp1
      refine ⟨nodup_pids_of_eq (pids_setCompletion pid _ _) h2.1, ?_⟩
      intro q hq hb
      exact h2.2 q (setCompletion_np pid _ _ hbp2 q hq hb) hb

theorem npInv_serveMLQ (fgQuantum : Int) (bgQuantum : Option Int)
    (st : SimState MLQReady) (h : NPInv mlqView st) :
    NPInv mlqView (serveMLQ fgQuantum bgQuantum st) := by
  unfold serveMLQ
  split
  · rename_i pid rest hready
    have hbp : ∀ q ∈ st.procs, q.burst ≤ 0 → q.pid ≠ pid := by
      intro q hq hb hqp
      apply (h.2 q hq hb).2.2.2.2.1
      show q.pid ∈ st.ready.1 ++ st.ready.2
      apply List.mem_append_left
      rw [hready, hqp]
      exact List.mem_cons_self _ _
    split
    · refine ⟨h.1, ?_⟩
      intro q hq hb
      obtain ⟨h1, h2, h3, h4, h5, h6⟩ := h.2 q hq hb
      refine ⟨h1, h2, h3, h4, ?_, h6⟩
      have h5x : q.pid ∉ (pid :: rest) ++ st.ready.2 := by
        rw [← hready]
        exact h5
      exact mlq_mem_shift h5x
    · rename_i p hp
      dsimp only
      have hst1 : NPInv mlqView { st with
          ready := (rest, st.ready.2)
          procs := setStartTime pid st.time st.procs } := by
        refine ⟨nodup_pids_of_eq (pids_setStartTime pid st.time st.procs) h.1, ?_⟩
        intro q hq hb
        have hql := setStartTime_np pid st.time st.procs hbp q hq hb
        obtain ⟨h1, h2, h3, h4, h5, h6⟩ := h.2 q hql hb
        refine ⟨h1, h2, h3, h4, ?_, h6⟩
        have h5x : q.pid ∉ (pid :: rest) ++ st.ready.2 := by
          rw [← hready]
          exact h5
        exact mlq_mem_shift h5x
      have hbp1 := badpid_of_pid_burst pid (setStartTime_pid_burst pid st.time st.procs) hbp
      obtain ⟨h2, hbp2⟩ := npInv_execUnits mlqPushSub mlqView pid
        (min fgQuantum p.remaining).toNat _ hst1 hbp1
      split
      · exact h2
      · rename_i p2 hp2
        split
        · refine ⟨nodup_pids_of_eq (pids_setCompletion pid _ _) h2.1, ?_⟩
          intro q hq hb
          exact h2.2 q (setCompletion_np pid _ _ hbp2 q hq hb) hb
        · refine ⟨h2.1, ?_⟩
          intro q hq hb
          obtain ⟨h1, hc2, h3, h4, h5, h6⟩ := h2.2 q hq hb
          refine ⟨h1, hc2, h3, h4, ?_, h6⟩
          exact mlq_mem_requeue_fg h5 (hbp2 q hq hb)
  · split
    · exact h
    · rename_i pid rest hready2
      have hbp : ∀ q ∈ st.procs, q.burst ≤ 0 → q.pid ≠ pid := by
        intro q hq hb hqp
        apply (h.2 q hq hb).2.2.2.2.1
        show q.pid ∈ st.ready.1 ++ st.ready.2
        apply List.mem_append_right
        rw [hready2, hqp]
        exact List.mem_cons_self _ _
      split
      · refine ⟨h.1, ?_⟩
        intro q hq hb
        obtain ⟨h1, h2, h3, h4, h5, h6⟩ := h.2 q hq hb
        refine ⟨h1, h2, h3, h4, ?_, h6⟩
        have h5x : q.pid ∉ st.ready.1 ++ (pid :: rest) := by
          rw [← hready2]
          exact h5
        exact mlq_mem_shift2 h5x
      · rename_i p hp
        dsimp only
        have hst1 : NPInv mlqView { st with
            ready := (st.ready.1, rest)
            procs := setStartTime pid st.time st.procs } := by
          refine ⟨nodup_pids_of_eq (pids_setStartTime pid st.time st.procs) h.1, ?_⟩
          intro q hq hb
          have hql := setStartTime_np pid st.time st.procs hbp q hq hb
          obtain ⟨h1, h2, h3, h4, h5, h6⟩ := h.2 q hql hb
          refine ⟨h1, h2, h3, h4, ?_, h6⟩
          have h5x : q.pid ∉ st.ready.1 ++ (pid :: rest) := by
            rw [← hready2]
            exact h5
          exact mlq_mem_shift2 h5x
        have hbp1 := badpid_of_pid_burst pid (setStartTime_pid_burst pid st.time st.procs) hbp
        split
        · obtain ⟨h2, hbp2⟩ := npInv_execUnits mlqPushSub mlqView pid
            p.remaining.toNat _ hst1 hbp1
          refine ⟨nodup_pids_of_eq (pids_setCompletion pid _ _) h2.1, ?_⟩
          intro q hq hb
          exact h2.2 q (setCompletion_np pid _ _ hbp2 q hq hb) hb
        · rename_i bq
          obtain ⟨h2, hbp2⟩ := npInv_execUnits mlqPushSub mlqView pid
            (min bq p.remaining).toNat _ hst1 hbp1
          split
          · exact h2
          · rename_i p2 hp2
            split
            · refine ⟨nodup_pids_of_eq (pids_setCompletion pid _ _) h2.1, ?_⟩
              intro q hq hb
              exact h2.2 q (setCompletion_np pid _ _ hbp2 q hq hb) hb
            · refine ⟨h2.1, ?_⟩
              intro q hq hb
              obtain ⟨h1, hc2, h3, h4, h5, h6⟩ := h2.2 q hq hb
              refine ⟨h1, hc2, h3, h4, ?_, h6⟩
              exact mlq_mem_requeue_bg h5 (hbp2 q hq hb)

/-! ## Claim C5 — non-positive bursts -/

/-- C5 counterexample: a zero-burst process is accepted without an
`InvalidInput` failure: `simulate "FCFS"` returns a normal result in which
the process was never executed (empty trace) and its completion time was
defaulted to 0. -/
theorem zero_burst_accepted_counterexample :
    (simulate "FCFS" [⟨"Z", 0, 0, none⟩] {}).trace = [] ∧
    (simulate "FCFS" [⟨"Z", 0, 0, none⟩] {}).stats.processes.map
        (fun p => (p.pid, p.remaining, p.completionTime)) =
      [("Z", 0, some 0)] := by
  constructor
  · rfl
  · decide

theorem npRun_final {ρ : Type} {rp : ρ → List String} (isEmpty : ρ → Bool)
    {push : List Proc → ρ → ρ} (idleReady : ρ → List String)
    (serve : SimState ρ → SimState ρ) (hpush : PushSub rp push)
    (hserve : ∀ st, NPInv rp st → NPInv rp (serve st))
    (hserveL : ∀ st, LogInv st → LogInv (serve st))
    (ready0 : ρ) (procs0 : List Proc) (hnd : (pids procs0).Nodup)
    (hfr : ∀ p ∈ procs0, p.remaining = p.burst ∧ p.startTime = none ∧
      p.completionTime = none ∧ p.enqueued = false)
    (hready0 : rp ready0 = []) :
    ∀ p ∈ (finishRun (simLoop isEmpty push idleReady serve maxIter
        (initState ready0 push procs0))).stats.processes,
      p.burst ≤ 0 →
      p.remaining = p.burst ∧ p.enqueued = false ∧
      p.startTime = some p.arrival ∧
      p.completionTime = some (((finishRun (simLoop isEmpty push idleReady serve
        maxIter (initState ready0 push procs0))).trace.length : Int)) ∧
      ∀ e ∈ (finishRun (simLoop isEmpty push idleReady serve maxIter
        (initState ready0 push procs0))).trace, e.cpu ≠ some p.pid := by
  have hnp : NPInv rp (simLoop isEmpty push idleReady serve maxIter
      (initState ready0 push procs0)) := by
    apply npInv_simLoop isEmpty idleReady serve hpush hserve
    apply npInv_enqueueArrivals hpush
    refine ⟨hnd, ?_⟩
    intro p hp hb
    obtain ⟨f1, f2, f3, f4⟩ := hfr p hp
    refine ⟨f1, f2, f3, f4, ?_, ?_⟩
    · show p.pid ∉ rp ready0
      rw [hready0]
      exact List.not_mem_nil _
    · intro e he
      exact absurd he (List.not_mem_nil e)
  have hlog : LogInv (simLoop isEmpty push idleReady serve maxIter
      (initState ready0 push procs0)) :=
    logInv_simLoop isEmpty push idleReady serve hserveL maxIter _
      (logInv_initState ready0 push procs0)
  have htime := hlog.2.2
  intro p hp hb
  have hp2 : p ∈ finalizeProcs
      (simLoop isEmpty push idleReady serve maxIter (initState ready0 push procs0)).time
      (simLoop isEmpty push idleReady serve maxIter (initState ready0 push procs0)).procs := hp
  unfold finalizeProcs at hp2
  rcases List.mem_map.mp hp2 with ⟨q, hq, hqe⟩
  have hqb : q.burst ≤ 0 := by rw [← hqe] at hb; exact hb
  obtain ⟨q1, q2, q3, q4, q5, q6⟩ := hnp.2 q hq hqb
  subst hqe
  refine ⟨q1, q4, ?_, ?_, ?_⟩
  · show some (q.startTime.getD q.arrival) = some q.arrival
    rw [q2]
    rfl
  · have hct : q.completionTime.getD
        (simLoop isEmpty push idleReady serve maxIter (initState ready0 push procs0)).time =
        (((finishRun (simLoop isEmpty push idleReady serve maxIter
          (initState ready0 push procs0))).trace.length : Int)) := by
      rw [q3]
      exact htime
    exact congrArg some hct
  · intro e he
    exact q6 e he

/-- C5 amended: for every process list (with the spec's distinct pids) and
every algorithm tag and options, `simulate` accepts zero- and
negative-burst processes without failing: each such process is never
admitted (`enqueued` stays false) and never executed (no trace unit runs
it), its `remaining` stays at the non-positive burst, its start time is
defaulted to its arrival, and its completion time is defaulted to the final
simulated time (the number of emitted trace units). -/
theorem simulate_nonpositive_burst_returns_normally (alg : String)
    (ps : List ProcIn) (opts : SimOptions)
    (hnd : (ps.map (fun p => p.pid)).Nodup) :
    ∀ p ∈ (simulate alg ps opts).stats.processes, p.burst ≤ 0 →
      p.remaining = p.burst ∧ p.enqueued = false ∧
      p.startTime = some p.arrival ∧
      p.completionTime = some ((simulate alg ps opts).trace.length : Int) ∧
      ∀ e ∈ (simulate alg ps opts).trace, e.cpu ≠ some p.pid := by
  have hndN := nodup_pids_normalized ps hnd
  have hfrN : ∀ p ∈ initProcs (ps.map fun p =>
      NProc.mk p.pid p.arrival p.burst (p.priority.getD 0)),
      p.remaining = p.burst ∧ p.startTime = none ∧
      p.completionTime = none ∧ p.enqueued = false := initProcs_fields _
  have hndS : (pids (sortByArrival (initProcs (ps.map fun p =>
      NProc.mk p.pid p.arrival p.burst (p.priority.getD 0))))).Nodup :=
    nodup_pids_sortByArrival _ hndN
  have hfrS : ∀ p ∈ sortByArrival (initProcs (ps.map fun p =>
      NProc.mk p.pid p.arrival p.burst (p.priority.getD 0))),
      p.remaining = p.burst ∧ p.startTime = none ∧
      p.completionTime = none ∧ p.enqueued = false :=
    fun p hp => hfrN p ((List.perm_insertionSort _ _).subset hp)
  unfold simulate
  split
  · exact npRun_final List.isEmpty rrView (serveRR _) rrPushSub
      (npInv_serveRR _) (logInv_serveRR _) [] _ hndS hfrS rfl
  · exact npRun_final List.isEmpty rrView serveFCFS rrPushSub
      npInv_serveFCFS logInv_serveFCFS [] _ hndS hfrS rfl
  · exact npRun_final List.isEmpty (fun _ => []) serveSJF rrPushSub
      npInv_serveSJF logInv_serveSJF [] _ hndN hfrN rfl
  · exact npRun_final List.isEmpty (fun _ => []) servePriority rrPushSub
      npInv_servePriority logInv_servePriority [] _ hndN hfrN rfl
  · exact npRun_final mlqIsEmpty (fun _ => []) (serveMLQ _ _) mlqPushSub
      (npInv_serveMLQ _ _) (logInv_serveMLQ _ _) ([], []) _ hndS hfrS rfl
  · exact npRun_final List.isEmpty rrView (serveRR _) rrPushSub
      (npInv_serveRR _) (logInv_serveRR _) [] _ hndS hfrS rfl

/-- Witness for C5 amended at a concrete run: `FCFS` over
`A (arrival 0, burst 3)` and `Z (arrival 1, burst 0)`; the returned record
for `Z` keeps `remaining = burst = 0`, was never admitted, has start time
defaulted to its arrival 1 and completion time defaulted to the final time
3, and the first trace unit does not run `Z`. -/
theorem simulate_nonpositive_burst_returns_normally_witness :
    (Proc.mk "Z" 1 0 0 0 (some 1) (some 3) false 2 2).remaining =
      (Proc.mk "Z" 1 0 0 0 (some 1) (some 3) false 2 2).burst ∧
    (Proc.mk "Z" 1 0 0 0 (some 1) (some 3) false 2 2).enqueued = false ∧
    (Proc.mk "Z" 1 0 0 0 (some 1) (some 3) false 2 2).startTime =
      some (Proc.mk "Z" 1 0 0 0 (some 1) (some 3) false 2 2).arrival ∧
    (Proc.mk "Z" 1 0 0 0 (some 1) (some 3) false 2 2).completionTime =
      some (((simulate "FCFS" [⟨"A", 0, 3, none⟩, ⟨"Z", 1, 0, none⟩]
        {}).trace.length : Int)) ∧
    (TraceEvent.mk 0 (some "A") [] "exec(A)").cpu ≠
      some (Proc.mk "Z" 1 0 0 0 (some 1) (some 3) false 2 2).pid := by
  have h := simulate_nonpositive_burst_returns_normally "FCFS"
    [⟨"A", 0, 3, none⟩, ⟨"Z", 1, 0, none⟩] {} (by decide)
    (Proc.mk "Z" 1 0 0 0 (some 1) (some 3) false 2 2) (by decide) (by decide)
  exact ⟨h.1, h.2.1, h.2.2.1, h.2.2.2.1,
    h.2.2.2.2 (TraceEvent.mk 0 (some "A") [] "exec(A)") (by decide)⟩

end Sched
